import Mathlib

/-!
A doubly linked list with a sentinel node (`list.h`).

Shallow embedding of the container of `src/list.h`.

* Memory is a `Heap`: every address carries a `next` link, a `prev` link, an
  optional stored element (`some v` exactly for a live `vnode`) and an
  allocation bit.  Addresses are natural numbers.
* A `list` object is identified by the address of its embedded sentinel
  `fake`; a `basic_iterator` is the address `p` of the node it references.
* `new` returns an address chosen by the allocator; the operations that
  allocate take that address as the argument `n`, and the theorems assume it
  is not allocated in the pre-state.
* The reference parameters of the `triswap` lambda of `splice` are modelled
  as locations (`Loc`), and its three assignments are executed one after the
  other on the heap, so aliasing between the three references is kept.
* Loops (`erase(first, last)`, traversal) take a fuel argument that bounds the
  number of executions of the loop body and return `none` when it runs out.
  The loop of the copy constructor is bounded by the list of addresses that
  the successive calls of `new` return.
* `operator++()` and `operator--()` assign to `p` and have no `return`
  statement; `pre_inc` and `pre_dec` model them as the assignment together
  with an absent returned reference.  A call of one of them is undefined
  behaviour, rendered as `none` (`exec_inc`, `exec_dec`), and so is all code
  that executes such a call: `std::prev`, hence `back()` and `pop_back()`, the
  dereference of a reverse cursor, and the loop of the copy constructor as
  written (`copy_loop_strict`).
* `walk`, `traverse`, `rwalk` and `rtraverse` are readings of the links of a
  heap, used to state what a state contains; they follow `next` and `prev`
  directly and execute no cursor operator.  `copy_loop`, and `assign` built
  on it, take each step `++it` of the copy loop as the assignment alone.
* A `new` expression that can fail is modelled by `NewOutcome`; `insert_try`
  is `insert` with such an expression.
* `Step` and `Reachable` describe the legal calls of the insert/erase family
  and the states reached from the default constructor by them.
-/

namespace Sorokin

/-- Addresses of nodes. -/
abbrev Ptr := Nat

/-- The two link fields of `struct node`. -/
inductive Field where
  | next
  | prev
  deriving DecidableEq, Repr

/-- A `node*&`: the link field `field` of the node at address `node`. -/
structure Loc where
  node : Ptr
  field : Field
  deriving DecidableEq, Repr

/-- Memory: the `next` and `prev` fields of every address, the `value` field
(`some v` exactly when the address holds a live `vnode`), and whether the
address is currently allocated. -/
structure Heap (T : Type) where
  next : Ptr → Ptr
  prev : Ptr → Ptr
  value : Ptr → Option T
  alloc : Ptr → Bool

variable {T : Type}

/-- A heap in which nothing is allocated. -/
def Heap.empty : Heap T :=
  { next := fun _ => 0, prev := fun _ => 0, value := fun _ => none, alloc := fun _ => false }

/-- Read through a `node*&`. -/
def Heap.read (h : Heap T) (r : Loc) : Ptr :=
  match r.field with
  | Field.next => h.next r.node
  | Field.prev => h.prev r.node

/-- Assign through a `node*&`. -/
def Heap.write (h : Heap T) (r : Loc) (v : Ptr) : Heap T :=
  match r.field with
  | Field.next => { h with next := Function.update h.next r.node v }
  | Field.prev => { h with prev := Function.update h.prev r.node v }

/-- The expression `new vnode(next, prev, value)` when the allocator returns
address `n`: `vnode::vnode` initialises the three fields. -/
def Heap.new_vnode (h : Heap T) (n : Ptr) (next prev : Ptr) (value : T) : Heap T :=
  { next := Function.update h.next n next
    prev := Function.update h.prev n prev
    value := Function.update h.value n (some value)
    alloc := Function.update h.alloc n true }

/-- The statement `delete static_cast<vnode*>(old)`: the element is destroyed
and the address is released.  The link fields of the released cell are left
as they were. -/
def Heap.delete (h : Heap T) (old : Ptr) : Heap T :=
  { h with
    value := Function.update h.value old none
    alloc := Function.update h.alloc old false }

/-- A cursor, `list<T>::basic_iterator`: the address of the referenced node. -/
structure basic_iterator where
  p : Ptr
  deriving DecidableEq, Repr

/-- A container, `list<T>`: the address of its embedded sentinel `fake`. -/
structure list where
  fake : Ptr
  deriving DecidableEq, Repr

/-- Dereference, `basic_iterator::operator*`: the stored element of the
referenced node; `none` when the node is not a live `vnode` (undefined in the
source). -/
def basic_iterator.deref (h : Heap T) (it : basic_iterator) : Option T :=
  h.value it.p

/-- The node after the one `it` references: the value that the assignment
`p = p->next` of `basic_iterator::operator++` stores.  It follows the link
and is not a call of the operator. -/
def basic_iterator.inc (h : Heap T) (it : basic_iterator) : basic_iterator :=
  ⟨h.next it.p⟩

/-- The node before the one `it` references: the value that the assignment
`p = p->prev` of `basic_iterator::operator--` stores.  It follows the link
and is not a call of the operator. -/
def basic_iterator.dec (h : Heap T) (it : basic_iterator) : basic_iterator :=
  ⟨h.prev it.p⟩

/-- The member `basic_iterator::operator++() &`: the body is the single
statement `p = p->next;` and control then reaches the closing brace of a
function declared to return `iterator&` without executing a `return`.  The
first component is the cursor after the assignment, the second the returned
reference: `none`, since no value is returned. -/
def basic_iterator.pre_inc (h : Heap T) (it : basic_iterator) :
    basic_iterator × Option basic_iterator :=
  (⟨h.next it.p⟩, none)

/-- The member `basic_iterator::operator++(int) &`:
`iterator res(*this); ++*this; return res;`. -/
def basic_iterator.post_inc (h : Heap T) (it : basic_iterator) :
    basic_iterator × Option basic_iterator :=
  let res := it
  ((it.pre_inc h).1, some res)

/-- The member `basic_iterator::operator--() &`: the body is the single
statement `p = p->prev;`, again without a `return`. -/
def basic_iterator.pre_dec (h : Heap T) (it : basic_iterator) :
    basic_iterator × Option basic_iterator :=
  (⟨h.prev it.p⟩, none)

/-- The member `basic_iterator::operator--(int) &`:
`iterator res(*this); --*this; return res;`. -/
def basic_iterator.post_dec (h : Heap T) (it : basic_iterator) :
    basic_iterator × Option basic_iterator :=
  let res := it
  ((it.pre_dec h).1, some res)

/-- The statement `++it;`: a call of `operator++()` whose returned reference
is discarded.  The call completes, leaving the cursor after the assignment,
only when the operator returns; reaching the end of the operator's body
without a `return` is undefined behaviour, rendered as `none`. -/
def basic_iterator.exec_inc (h : Heap T) (it : basic_iterator) : Option basic_iterator :=
  match (it.pre_inc h).2 with
  | none => none
  | some _ => some (it.pre_inc h).1

/-- The statement `--it;`: a call of `operator--()` whose returned reference
is discarded; `none` is the undefined behaviour of the missing `return`. -/
def basic_iterator.exec_dec (h : Heap T) (it : basic_iterator) : Option basic_iterator :=
  match (it.pre_dec h).2 with
  | none => none
  | some _ => some (it.pre_dec h).1

/-- The call `std::prev(it)`: it executes `--tmp;` on a copy `tmp` of `it` and
returns the copy. -/
def std_prev (h : Heap T) (it : basic_iterator) : Option basic_iterator :=
  it.exec_dec h

/-- The default constructor `list::list() : fake(&fake, &fake)` for a list
object whose sentinel lives at address `self`. -/
def list.ctor (h : Heap T) (self : Ptr) : Heap T × list :=
  ({ next := Function.update h.next self self
     prev := Function.update h.prev self self
     value := Function.update h.value self none
     alloc := Function.update h.alloc self true },
   ⟨self⟩)

/-- The member `list::empty`. -/
def list.empty (h : Heap T) (self : list) : Bool :=
  decide (h.next self.fake = self.fake)

/-- The member `list::begin`. -/
def list.begin (h : Heap T) (self : list) : basic_iterator :=
  ⟨h.next self.fake⟩

/-- The member `list::end`. -/
def list.end_ (self : list) : basic_iterator :=
  ⟨self.fake⟩

/-- The member `list::insert(pos, val)`, with `n` the address returned by
`new`. -/
def list.insert (h : Heap T) (_self : list) (pos : basic_iterator) (val : T) (n : Ptr) :
    Heap T × basic_iterator :=
  let h1 := h.new_vnode n pos.p (h.prev pos.p) val
  let h2 := h1.write ⟨h1.next n, Field.prev⟩ n
  let h3 := h2.write ⟨h2.prev n, Field.next⟩ n
  (h3, ⟨n⟩)

/-- The member `list::erase(pos)`. -/
def list.erase (h : Heap T) (_self : list) (pos : basic_iterator) :
    Heap T × basic_iterator :=
  let old := pos.p
  let next := h.next old
  let h1 := h.write ⟨h.prev old, Field.next⟩ (h.next old)
  let h2 := h1.write ⟨h1.next old, Field.prev⟩ (h1.prev old)
  (h2.delete old, ⟨next⟩)

/-- The member `list::erase(first, last)`: the loop
`while (first != last) first = erase(first);` followed by
`return iterator(last.p)`.  Each execution of the loop body consumes one unit
of fuel; `none` means the fuel did not suffice. -/
def list.erase_range (h : Heap T) (self : list) :
    Nat → basic_iterator → basic_iterator → Option (Heap T × basic_iterator)
  | fuel, first, last =>
    if first = last then some (h, ⟨last.p⟩)
    else
      match fuel with
      | 0 => none
      | fuel + 1 =>
        list.erase_range (list.erase h self first).1 self fuel (list.erase h self first).2 last

/-- The member `list::clear`. -/
def list.clear (h : Heap T) (self : list) (fuel : Nat) : Option (Heap T) :=
  (list.erase_range h self fuel (list.begin h self) (list.end_ self)).map Prod.fst

/-- The member `list::front`. -/
def list.front (h : Heap T) (self : list) : Option T :=
  (list.begin h self).deref h

/-- The member `list::back`: `return *std::prev(end());`.  The result is
`none` when the call of `std::prev` is undefined or the node is not a live
value node. -/
def list.back (h : Heap T) (self : list) : Option T :=
  match std_prev h (list.end_ self) with
  | none => none
  | some it => it.deref h

/-- The member `list::push_front`. -/
def list.push_front (h : Heap T) (self : list) (val : T) (n : Ptr) : Heap T :=
  (list.insert h self (list.begin h self) val n).1

/-- The member `list::pop_front`. -/
def list.pop_front (h : Heap T) (self : list) : Heap T :=
  (list.erase h self (list.begin h self)).1

/-- The member `list::push_back`. -/
def list.push_back (h : Heap T) (self : list) (val : T) (n : Ptr) : Heap T :=
  (list.insert h self (list.end_ self) val n).1

/-- The member `list::pop_back`: `erase(std::prev(end()));`.  The result is
`none` when the call of `std::prev` is undefined. -/
def list.pop_back (h : Heap T) (self : list) : Option (Heap T) :=
  match std_prev h (list.end_ self) with
  | none => none
  | some it => some (list.erase h self it).1

/-- The lambda `triswap` of `list::splice`, on three references:
`tmp = a; a = b; b = c; c = tmp;`. -/
def triswap (h : Heap T) (a b c : Loc) : Heap T :=
  let tmp := h.read a
  let h1 := h.write a (h.read b)
  let h2 := h1.write b (h1.read c)
  h2.write c tmp

/-- The member `list::splice(pos, other, first, last)`. -/
def list.splice (h : Heap T) (_self : list) (pos : basic_iterator) (_other : list)
    (first last : basic_iterator) : Heap T :=
  let h1 := triswap h ⟨h.prev pos.p, Field.next⟩ ⟨h.prev first.p, Field.next⟩
    ⟨h.prev last.p, Field.next⟩
  triswap h1 ⟨pos.p, Field.prev⟩ ⟨last.p, Field.prev⟩ ⟨first.p, Field.prev⟩

/-- Reading of the list from cursor `it` to `end()`: the elements met by
following the `next` links, in the order in which a loop
`for (; it != end(); ++it) out.push_back(*it)` visits them.  It reads the
links of the heap and is not an execution of the cursor operators.  Each
element read consumes one unit of fuel; the result is `none` when the fuel
runs out or a node that is not a live value node is read. -/
def list.walk (h : Heap T) (self : list) : Nat → basic_iterator → Option (List T)
  | fuel, it =>
    if it = list.end_ self then some []
    else
      match fuel with
      | 0 => none
      | fuel + 1 =>
        match it.deref h with
        | none => none
        | some v => (list.walk h self fuel (it.inc h)).map (fun vs => v :: vs)

/-- Reading of the whole list, from `begin()` to `end()`. -/
def list.traverse (h : Heap T) (self : list) (fuel : Nat) : Option (List T) :=
  list.walk h self fuel (list.begin h self)

/-! ## Representation predicate -/

/-- Node `a` is directly followed by node `b`: `a.next == b` and
`b.prev == a`. -/
def Linked (h : Heap T) (a b : Ptr) : Prop :=
  h.next a = b ∧ h.prev b = a

instance (h : Heap T) (a b : Ptr) : Decidable (Linked h a b) :=
  inferInstanceAs (Decidable (_ ∧ _))

/-- Starting at `a`, the nodes of `l` follow one another: every node is
linked to the one after it. -/
def Path (h : Heap T) : Ptr → List Ptr → Prop
  | _, [] => True
  | a, b :: l => Linked h a b ∧ Path h b l

instance decPath (h : Heap T) : (a : Ptr) → (l : List Ptr) → Decidable (Path h a l)
  | _, [] => isTrue trivial
  | a, b :: l =>
    match (inferInstance : Decidable (Linked h a b)), decPath h b l with
    | isTrue h1, isTrue h2 => isTrue ⟨h1, h2⟩
    | isFalse h1, _ => isFalse (fun hh => h1 hh.1)
    | _, isFalse h2 => isFalse (fun hh => h2 hh.2)

/-- The final node of the non-empty sequence `a :: l`. -/
def lastOf : Ptr → List Ptr → Ptr
  | a, [] => a
  | _, b :: l => lastOf b l

/-- The nodes of `c`, in this order, form a closed cycle of the heap: each is
linked to the one after it and the final one is linked to the first. -/
def Cyc (h : Heap T) : List Ptr → Prop
  | [] => True
  | a :: l => Path h a l ∧ Linked h (lastOf a l) a

instance (h : Heap T) (c : List Ptr) : Decidable (Cyc h c) :=
  match c with
  | [] => isTrue trivial
  | _ :: _ => inferInstanceAs (Decidable (_ ∧ _))

/-- The list `self` is well formed in heap `h` and consists of the value
nodes `nvs` (address and stored element, in forward order): the sentinel
followed by the value nodes is a closed cycle without repetition, the
sentinel is an allocated plain node, and every value node is allocated and
stores its element. -/
def list.WF (h : Heap T) (self : list) (nvs : List (Ptr × T)) : Prop :=
  (self.fake :: nvs.map Prod.fst).Nodup ∧
  Cyc h (self.fake :: nvs.map Prod.fst) ∧
  h.alloc self.fake = true ∧ h.value self.fake = none ∧
  ∀ nv ∈ nvs, h.alloc nv.1 = true ∧ h.value nv.1 = some nv.2

instance [DecidableEq T] (h : Heap T) (self : list) (nvs : List (Ptr × T)) :
    Decidable (list.WF h self nvs) :=
  inferInstanceAs (Decidable (_ ∧ _ ∧ _ ∧ _ ∧ _))

/-! ## Concrete heaps used as test inputs -/

/-- List `A = [1,2,3,4]` with sentinel at address 0 and value nodes at 1..4,
and list `B = [10,20,30]` with sentinel at address 5 and value nodes at
6..8, built by the constructor and `push_back`. -/
def heapAB : Heap Nat :=
  let h := (list.ctor (Heap.empty : Heap Nat) 0).1
  let h := list.push_back h ⟨0⟩ 1 1
  let h := list.push_back h ⟨0⟩ 2 2
  let h := list.push_back h ⟨0⟩ 3 3
  let h := list.push_back h ⟨0⟩ 4 4
  let h := (list.ctor h 5).1
  let h := list.push_back h ⟨5⟩ 10 6
  let h := list.push_back h ⟨5⟩ 20 7
  list.push_back h ⟨5⟩ 30 8

/-- The list `L` after `list L; L.push_back(5);`, with sentinel at address 0
and the value node at address 1. -/
def heapL : Heap Nat :=
  list.push_back (list.ctor (Heap.empty : Heap Nat) 0).1 ⟨0⟩ 5 1

/-! ## Reverse traversal -/

/-- A `std::reverse_iterator<iterator>`: it wraps the base cursor `current`. -/
structure reverse_iterator where
  current : basic_iterator
  deriving DecidableEq, Repr

/-- The member `list::rbegin`: `reverse_iterator(end())`. -/
def list.rbegin (self : list) : reverse_iterator :=
  ⟨list.end_ self⟩

/-- The member `list::rend`: `reverse_iterator(begin())`. -/
def list.rend (h : Heap T) (self : list) : reverse_iterator :=
  ⟨list.begin h self⟩

/-- Dereference of a reverse cursor, `std::reverse_iterator::operator*`:
`Iterator tmp = current; return *--tmp;`.  It dereferences the reference that
`operator--()` returns; the result is `none` when no reference is returned. -/
def reverse_iterator.deref (h : Heap T) (r : reverse_iterator) : Option T :=
  match (r.current.pre_dec h).2 with
  | none => none
  | some ref => ref.deref h

/-- Reading of the list in reverse: the elements met by following the `prev`
links from the sentinel back to the sentinel, which is the order of the range
`rbegin()`..`rend()`.  From reverse cursor `r` it reads the node before the
base cursor and moves the base cursor along `prev`.  It reads the links of the
heap and is not an execution of the cursor operators.  Each element read
consumes one unit of fuel. -/
def list.rwalk (h : Heap T) (self : list) : Nat → reverse_iterator → Option (List T)
  | fuel, r =>
    if r = list.rend h self then some []
    else
      match fuel with
      | 0 => none
      | fuel + 1 =>
        match (r.current.dec h).deref h with
        | none => none
        | some v => (list.rwalk h self fuel ⟨r.current.dec h⟩).map (fun vs => v :: vs)

/-- Reading of the whole list in reverse, in the order of `rbegin()`..`rend()`. -/
def list.rtraverse (h : Heap T) (self : list) (fuel : Nat) : Option (List T) :=
  list.rwalk h self fuel (list.rbegin self)

/-! ## Sequences of pushes and pops -/

/-- One of the four end operations; a push carries the value and the address
returned by `new`. -/
inductive PushPop (T : Type) where
  | push_back (v : T) (n : Ptr)
  | push_front (v : T) (n : Ptr)
  | pop_back
  | pop_front

/-- Apply one end operation.  The result is `none` when the operation is not
a legal call (a push whose address is already allocated, since the allocator
never returns a live address, or a pop on an empty list) or when the call is
undefined. -/
def list.apply (h : Heap T) (self : list) : PushPop T → Option (Heap T)
  | PushPop.push_back v n => if h.alloc n = true then none else some (list.push_back h self v n)
  | PushPop.push_front v n => if h.alloc n = true then none else some (list.push_front h self v n)
  | PushPop.pop_back => if list.empty h self = true then none else list.pop_back h self
  | PushPop.pop_front => if list.empty h self = true then none else some (list.pop_front h self)

/-- Apply a sequence of end operations from left to right. -/
def list.run (self : list) : List (PushPop T) → Heap T → Option (Heap T)
  | [], h => some h
  | op :: ops, h =>
    match list.apply h self op with
    | none => none
    | some h' => list.run self ops h'

/-! ## Swap, copy construction and copy assignment -/

/-- The call `std::swap(a, b)` on two `node*` fields:
`tmp = a; a = b; b = tmp;`. -/
def std_swap (h : Heap T) (a b : Loc) : Heap T :=
  let tmp := h.read a
  let h1 := h.write a (h.read b)
  h1.write b tmp

/-- The friend function `swap(list& a, list& b)`. -/
def swap (h : Heap T) (a b : list) : Heap T :=
  let h1 := std_swap h ⟨a.fake, Field.next⟩ ⟨b.fake, Field.next⟩
  let h2 := std_swap h1 ⟨a.fake, Field.prev⟩ ⟨b.fake, Field.prev⟩
  let h3 := h2.write ⟨h2.next a.fake, Field.prev⟩ a.fake
  let h4 := h3.write ⟨h3.prev a.fake, Field.next⟩ a.fake
  let h5 := h4.write ⟨h4.next b.fake, Field.prev⟩ b.fake
  h5.write ⟨h5.prev b.fake, Field.next⟩ b.fake

/-- The loop `for (auto const& e : other) push_back(e);` of the copy
constructor, from cursor `it` of `other`, with each step `++it` of the loop
taken as the assignment `p = p->next` alone, that is, as the loop proceeds
when the call of `operator++()` returns.  The loop as written, with the call,
is `list.copy_loop_strict`.  The list `ns` holds the addresses that the
successive calls of `new` return; `none` means that the addresses ran out or
that a node which is not a live value node was dereferenced. -/
def list.copy_loop (self other : list) : List Ptr → Heap T → basic_iterator → Option (Heap T)
  | ns, h, it =>
    if it = list.end_ other then some h
    else
      match ns with
      | [] => none
      | n :: ns =>
        match it.deref h with
        | none => none
        | some e =>
          list.copy_loop self other ns (list.push_back h self e n)
            (it.inc (list.push_back h self e n))

/-- The loop `for (auto const& e : other) push_back(e);` of the copy
constructor as written: after each `push_back(e)` it executes the statement
`++it;`, a call of `operator++()`.  The result is `none` when that call is
undefined, when the addresses `ns` run out, or when a node which is not a live
value node is dereferenced. -/
def list.copy_loop_strict (self other : list) :
    List Ptr → Heap T → basic_iterator → Option (Heap T)
  | ns, h, it =>
    if it = list.end_ other then some h
    else
      match ns with
      | [] => none
      | n :: ns =>
        match it.deref h with
        | none => none
        | some e =>
          match it.exec_inc (list.push_back h self e n) with
          | none => none
          | some it' => list.copy_loop_strict self other ns (list.push_back h self e n) it'

/-- The copy constructor `list::list(list const& other)` as written, for a new
list object whose sentinel lives at address `self`: the default constructor
followed by the loop with its calls of `operator++()`. -/
def list.copy_ctor_strict (h : Heap T) (self : Ptr) (other : list) (ns : List Ptr) :
    Option (Heap T × list) :=
  (list.copy_loop_strict (list.ctor h self).2 other ns (list.ctor h self).1
    (list.begin (list.ctor h self).1 other)).map (fun h' => (h', (list.ctor h self).2))

/-- The copy constructor `list::list(list const& other)` for a new list object
whose sentinel lives at address `self`, with the loop `list.copy_loop`. -/
def list.copy_ctor (h : Heap T) (self : Ptr) (other : list) (ns : List Ptr) :
    Option (Heap T × list) :=
  (list.copy_loop (list.ctor h self).2 other ns (list.ctor h self).1
    (list.begin (list.ctor h self).1 other)).map (fun h' => (h', (list.ctor h self).2))

/-- The copy assignment `list::operator=(list other)`.  The by-value parameter
is copy-constructed from `rhs` at address `tmp` with node addresses `ns`, by
the loop `list.copy_loop`; the body is
`swap(other, *this); other.clear(); return *this;`. -/
def list.assign (h : Heap T) (self rhs : list) (tmp : Ptr) (ns : List Ptr) (fuel : Nat) :
    Option (Heap T) :=
  match list.copy_ctor h tmp rhs ns with
  | none => none
  | some r => list.clear (swap r.1 r.2 self) r.2 fuel

/-! ## Allocation failure -/

/-- The ways the expression `new vnode(next, prev, value)` can end: the
allocation function fails, the allocation at address `n` succeeds but copying
the element fails (the storage is then released again), or the node is
constructed at address `n`. -/
inductive NewOutcome where
  | bad_alloc
  | copy_throws (n : Ptr)
  | ok (n : Ptr)
  deriving DecidableEq, Repr

/-- The exception that leaves `insert`. -/
inductive AllocError where
  | bad_alloc
  | copy_failed
  deriving DecidableEq, Repr

/-- The member `list::insert(pos, val)` with a `new` expression that may
fail.  The `new` expression is the first statement; when it fails the
exception leaves `insert` before the two link assignments.  In the
`copy_throws` case the base `node(next, prev)` was already initialised in the
storage at `n` before the element copy failed. -/
def list.insert_try (h : Heap T) (self : list) (pos : basic_iterator) (val : T) :
    NewOutcome → Heap T × Except AllocError basic_iterator
  | NewOutcome.bad_alloc => (h, Except.error AllocError.bad_alloc)
  | NewOutcome.copy_throws n =>
    ({ h with
        next := Function.update h.next n pos.p
        prev := Function.update h.prev n (h.prev pos.p) },
      Except.error AllocError.copy_failed)
  | NewOutcome.ok n => ((list.insert h self pos val n).1, Except.ok (list.insert h self pos val n).2)

/-- The member `list::push_front` with a `new` expression that may fail. -/
def list.push_front_try (h : Heap T) (self : list) (val : T) (o : NewOutcome) :
    Heap T × Except AllocError Unit :=
  ((list.insert_try h self (list.begin h self) val o).1,
    (list.insert_try h self (list.begin h self) val o).2.map (fun _ => ()))

/-- The member `list::push_back` with a `new` expression that may fail. -/
def list.push_back_try (h : Heap T) (self : list) (val : T) (o : NewOutcome) :
    Heap T × Except AllocError Unit :=
  ((list.insert_try h self (list.end_ self) val o).1,
    (list.insert_try h self (list.end_ self) val o).2.map (fun _ => ()))

/-! ## Legal operations and reachable states -/

/-- Cursor `pos` is a position of list `self`: it is reached from `end()` by
finitely many increments. -/
def ValidPos (h : Heap T) (self : list) (pos : basic_iterator) : Prop :=
  ∃ k : Nat, (h.next)^[k] self.fake = pos.p

/-- The pair `first`, `last` is a valid range of list `self`: `first` is a
position of the list and `last` is reached from `first` by finitely many
increments none of which starts at `end()`. -/
def ValidRange (h : Heap T) (self : list) (first last : basic_iterator) : Prop :=
  ValidPos h self first ∧
  ∃ k : Nat, (h.next)^[k] first.p = last.p ∧ ∀ j, j < k → (h.next)^[j] first.p ≠ self.fake

/-- Heap `h'` agrees with heap `h` outside list `self` with value nodes `nvs`:
every cell that is allocated in `h` and is not a node of the list keeps its
four fields. -/
def FrameOutside (h h' : Heap T) (self : list) (nvs : List (Ptr × T)) : Prop :=
  ∀ a, h.alloc a = true → a ∉ self.fake :: nvs.map Prod.fst →
    h'.next a = h.next a ∧ h'.prev a = h.prev a ∧ h'.value a = h.value a ∧
    h'.alloc a = h.alloc a

/-- One legal call of a member of the insert/erase family on list `self`,
taking heap `h` to heap `h'`. -/
inductive Step (self : list) : Heap T → Heap T → Prop where
  | insert (h : Heap T) (pos : basic_iterator) (v : T) (n : Ptr) :
      ValidPos h self pos → h.alloc n = false →
      Step self h (list.insert h self pos v n).1
  | erase (h : Heap T) (pos : basic_iterator) :
      ValidPos h self pos → pos ≠ list.end_ self →
      Step self h (list.erase h self pos).1
  | erase_range (h : Heap T) (first last : basic_iterator) (fuel : Nat) (h' : Heap T)
      (it : basic_iterator) :
      ValidRange h self first last →
      list.erase_range h self fuel first last = some (h', it) →
      Step self h h'
  | push_front (h : Heap T) (v : T) (n : Ptr) :
      h.alloc n = false → Step self h (list.push_front h self v n)
  | push_back (h : Heap T) (v : T) (n : Ptr) :
      h.alloc n = false → Step self h (list.push_back h self v n)
  | pop_front (h : Heap T) :
      list.empty h self = false → Step self h (list.pop_front h self)
  | pop_back (h h' : Heap T) :
      list.empty h self = false → list.pop_back h self = some h' → Step self h h'
  | clear (h : Heap T) (fuel : Nat) (h' : Heap T) :
      list.clear h self fuel = some h' → Step self h h'

/-- Heap `h` is a state of list `self` reachable from the default constructor
by legal calls of the insert/erase family. -/
def Reachable (self : list) (h : Heap T) : Prop :=
  ∃ h0 : Heap T, Relation.ReflTransGen (Step self) (list.ctor h0 self.fake).1 h

/-! ## Further concrete heaps -/

/-- The heap `heapL` (list `L = [5]` at address 0) with a second,
default-constructed list at address 2. -/
def heapLE : Heap Nat :=
  (list.ctor heapL 2).1

/-- Two default-constructed lists, at addresses 0 and 1. -/
def heapEE : Heap Nat :=
  (list.ctor (list.ctor (Heap.empty : Heap Nat) 0).1 1).1

/-! ## Lemmas on paths and cycles -/

theorem lastOf_append_cons (l1 l2 : List Ptr) (a b : Ptr) :
    lastOf a (l1 ++ b :: l2) = lastOf b l2 := by
  induction l1 generalizing a with
  | nil => rfl
  | cons x l1 ih => exact ih x

theorem lastOf_mem (l : List Ptr) (a : Ptr) : lastOf a l ∈ a :: l := by
  induction l generalizing a with
  | nil => simp [lastOf]
  | cons x l ih => exact List.mem_cons_of_mem _ (ih x)

theorem lastOf_ne_of_nodup (l : List Ptr) (a : Ptr) (hn : (a :: l).Nodup) (hl : l ≠ []) :
    lastOf a l ≠ a := by
  cases l with
  | nil => exact absurd rfl hl
  | cons x l =>
    intro hEq
    have hm := lastOf_mem l x
    simp only [lastOf] at hEq
    rw [hEq] at hm
    exact (List.nodup_cons.mp hn).1 hm

theorem path_append_cons (h : Heap T) (l1 l2 : List Ptr) (a b : Ptr) :
    Path h a (l1 ++ b :: l2) ↔ Path h a l1 ∧ Linked h (lastOf a l1) b ∧ Path h b l2 := by
  induction l1 generalizing a with
  | nil => simp [Path, lastOf]
  | cons x l1 ih => simp [Path, lastOf, ih, and_assoc]

theorem cyc_rotate_cons (h : Heap T) (l1 l2 : List Ptr) (a b : Ptr) :
    Cyc h (a :: (l1 ++ b :: l2)) ↔ Cyc h (b :: (l2 ++ a :: l1)) := by
  simp only [Cyc, path_append_cons, lastOf_append_cons]
  tauto

theorem cyc_rotate (h : Heap T) (X Y : List Ptr) : Cyc h (X ++ Y) ↔ Cyc h (Y ++ X) := by
  cases X with
  | nil => simp
  | cons a l1 =>
    cases Y with
    | nil => simp
    | cons b l2 => exact cyc_rotate_cons h l1 l2 a b

/-- Frame rule for paths: a path survives a heap change that keeps the `next`
field of every node but the final one and the `prev` field of every node but
the first one. -/
theorem path_frame (h h' : Heap T) (a : Ptr) (l : List Ptr) (hn : (a :: l).Nodup)
    (hp : Path h a l)
    (hnext : ∀ x ∈ a :: l, x ≠ lastOf a l → h'.next x = h.next x)
    (hprev : ∀ y ∈ l, h'.prev y = h.prev y) : Path h' a l := by
  induction l generalizing a with
  | nil => trivial
  | cons b l ih =>
    obtain ⟨hab, hbl⟩ := hp
    have hnab := List.nodup_cons.mp hn
    refine ⟨⟨?_, ?_⟩, ih b hnab.2 hbl ?_ ?_⟩
    · rw [hnext a (List.mem_cons_self _ _)]
      · exact hab.1
      · intro hEq
        have hm := lastOf_mem l b
        simp only [lastOf] at hEq
        rw [← hEq] at hm
        exact hnab.1 hm
    · rw [hprev b (List.mem_cons_self _ _)]
      exact hab.2
    · intro x hx hne
      exact hnext x (List.mem_cons_of_mem _ hx) hne
    · intro y hy
      exact hprev y (List.mem_cons_of_mem _ hy)

/-! ## The field updates performed by `splice` -/

theorem splice_value (h : Heap T) (self other : list) (pos first last : basic_iterator) :
    (list.splice h self pos other first last).value = h.value := by
  simp [list.splice, triswap, Heap.write, Heap.read]

theorem splice_alloc (h : Heap T) (self other : list) (pos first last : basic_iterator) :
    (list.splice h self pos other first last).alloc = h.alloc := by
  simp [list.splice, triswap, Heap.write, Heap.read]

/-- The `next` fields after `splice` when the three predecessors are pairwise
distinct: a three-cycle on the `next` fields of the predecessors. -/
theorem splice_next (h : Heap T) (self other : list) (pos first last : basic_iterator)
    (h1 : h.prev pos.p ≠ h.prev first.p) (h2 : h.prev pos.p ≠ h.prev last.p)
    (h3 : h.prev first.p ≠ h.prev last.p) (x : Ptr) :
    (list.splice h self pos other first last).next x =
      if x = h.prev pos.p then h.next (h.prev first.p)
      else if x = h.prev first.p then h.next (h.prev last.p)
      else if x = h.prev last.p then h.next (h.prev pos.p)
      else h.next x := by
  simp only [list.splice, triswap, Heap.write, Heap.read, Function.update_apply]
  split_ifs <;> simp_all

/-- The `prev` fields after `splice` when the three cursors are pairwise
distinct: a three-cycle on the `prev` fields of `pos`, `last` and `first`. -/
theorem splice_prev (h : Heap T) (self other : list) (pos first last : basic_iterator)
    (h1 : pos.p ≠ first.p) (h2 : pos.p ≠ last.p) (h3 : first.p ≠ last.p) (x : Ptr) :
    (list.splice h self pos other first last).prev x =
      if x = pos.p then h.prev last.p
      else if x = last.p then h.prev first.p
      else if x = first.p then h.prev pos.p
      else h.prev x := by
  simp only [list.splice, triswap, Heap.write, Heap.read, Function.update_apply]
  split_ifs <;> simp_all

theorem nodup_append3 {α : Type} (A B C : List α) :
    (A ++ B ++ C).Nodup ↔ A.Nodup ∧ B.Nodup ∧ C.Nodup ∧
      (∀ x ∈ A, x ∉ B) ∧ (∀ x ∈ A, x ∉ C) ∧ (∀ x ∈ B, x ∉ C) := by
  simp only [List.nodup_append, List.Disjoint, List.mem_append]
  constructor
  · rintro ⟨⟨hA, hB, hAB⟩, hC, hABC⟩
    exact ⟨hA, hB, hC, fun x hx => hAB hx, fun x hx => hABC (Or.inl hx),
      fun x hx => hABC (Or.inr hx)⟩
  · rintro ⟨hA, hB, hC, hAB, hAC, hBC⟩
    refine ⟨⟨hA, hB, fun {x} hx => hAB x hx⟩, hC, ?_⟩
    rintro x (hx | hx)
    · exact hAC x hx
    · exact hBC x hx

/-- The relinking done by `splice` on three disjoint non-empty segments
`m :: M` (the moved range), `r :: R` (starting at `last`) and `p :: P`
(starting at `pos`): every segment stays a path, and the three boundary links
become `pos.prev → first`, `first.prev → last` and `last.prev → pos`. -/
theorem splice_segments (h : Heap T) (self other : list) (m r p : Ptr) (M R P : List Ptr)
    (hnd : (m :: M ++ r :: R ++ p :: P).Nodup)
    (hM : Path h m M) (hR : Path h r R) (hP : Path h p P)
    (hl : Linked h (lastOf m M) r) (fp pp : Ptr)
    (hf : Linked h fp m) (hpp : Linked h pp p)
    (hcase : (fp = lastOf r R ∧ pp = lastOf p P) ∨ (fp = lastOf p P ∧ pp = lastOf r R)) :
    Path (list.splice h self ⟨p⟩ other ⟨m⟩ ⟨r⟩) m M ∧
    Path (list.splice h self ⟨p⟩ other ⟨m⟩ ⟨r⟩) r R ∧
    Path (list.splice h self ⟨p⟩ other ⟨m⟩ ⟨r⟩) p P ∧
    Linked (list.splice h self ⟨p⟩ other ⟨m⟩ ⟨r⟩) pp m ∧
    Linked (list.splice h self ⟨p⟩ other ⟨m⟩ ⟨r⟩) fp r ∧
    Linked (list.splice h self ⟨p⟩ other ⟨m⟩ ⟨r⟩) (lastOf m M) p := by
  obtain ⟨nM, nR, nP, dMR, dMP, dRP⟩ := (nodup_append3 _ _ _).mp hnd
  have lM := lastOf_mem M m
  have lR := lastOf_mem R r
  have lP := lastOf_mem P p
  have mM : m ∈ m :: M := List.mem_cons_self _ _
  have rR : r ∈ r :: R := List.mem_cons_self _ _
  have pP : p ∈ p :: P := List.mem_cons_self _ _
  have e1 : lastOf m M ≠ lastOf r R := fun e => dMR _ lM (e ▸ lR)
  have e2 : lastOf m M ≠ lastOf p P := fun e => dMP _ lM (e ▸ lP)
  have e3 : lastOf r R ≠ lastOf p P := fun e => dRP _ lR (e ▸ lP)
  have e4 : m ≠ r := fun e => dMR _ mM (e ▸ rR)
  have e5 : m ≠ p := fun e => dMP _ mM (e ▸ pP)
  have e6 : r ≠ p := fun e => dRP _ rR (e ▸ pP)
  have hfpp : fp ≠ pp := by
    rcases hcase with ⟨rfl, rfl⟩ | ⟨rfl, rfl⟩
    · exact e3
    · exact e3.symm
  have hfl : fp ≠ lastOf m M := by
    rcases hcase with ⟨rfl, -⟩ | ⟨rfl, -⟩
    · exact e1.symm
    · exact e2.symm
  have hpl : pp ≠ lastOf m M := by
    rcases hcase with ⟨-, rfl⟩ | ⟨-, rfl⟩
    · exact e2.symm
    · exact e1.symm
  have knext : ∀ x, (list.splice h self ⟨p⟩ other ⟨m⟩ ⟨r⟩).next x =
      if x = pp then m else if x = fp then r else if x = lastOf m M then p else h.next x := by
    intro x
    have := splice_next h self other ⟨p⟩ ⟨m⟩ ⟨r⟩ (by simpa [hpp.2, hf.2] using hfpp.symm)
      (by simpa [hpp.2, hl.2] using hpl) (by simpa [hf.2, hl.2] using hfl) x
    simpa [hpp.2, hf.2, hl.2, hpp.1, hf.1, hl.1] using this
  have kprev : ∀ x, (list.splice h self ⟨p⟩ other ⟨m⟩ ⟨r⟩).prev x =
      if x = p then lastOf m M else if x = r then fp else if x = m then pp else h.prev x := by
    intro x
    have := splice_prev h self other ⟨p⟩ ⟨m⟩ ⟨r⟩ (Ne.symm e5) (Ne.symm e6) e4 x
    simpa [hpp.2, hf.2, hl.2] using this
  have fM : fp ∉ m :: M := by
    rcases hcase with ⟨rfl, -⟩ | ⟨rfl, -⟩
    · exact fun hx => dMR _ hx lR
    · exact fun hx => dMP _ hx lP
  have pM : pp ∉ m :: M := by
    rcases hcase with ⟨-, rfl⟩ | ⟨-, rfl⟩
    · exact fun hx => dMP _ hx lP
    · exact fun hx => dMR _ hx lR
  refine ⟨?_, ?_, ?_, ?_, ?_, ?_⟩
  · refine path_frame h _ m M nM hM (fun x hx hne => ?_) (fun y hy => ?_)
    · have a1 : x ≠ pp := fun e => pM (e ▸ hx)
      have a2 : x ≠ fp := fun e => fM (e ▸ hx)
      rw [knext, if_neg a1, if_neg a2, if_neg hne]
    · have hy2 : y ∈ m :: M := List.mem_cons_of_mem _ hy
      have a1 : y ≠ p := fun e => dMP _ hy2 (e ▸ pP)
      have a2 : y ≠ r := fun e => dMR _ hy2 (e ▸ rR)
      have a3 : y ≠ m := fun e => (List.nodup_cons.mp nM).1 (e ▸ hy)
      rw [kprev, if_neg a1, if_neg a2, if_neg a3]
  · refine path_frame h _ r R nR hR (fun x hx hne => ?_) (fun y hy => ?_)
    · have hxl : x ≠ lastOf m M := fun e => dMR _ lM (e ▸ hx)
      have hxp : x ≠ lastOf p P := fun e => dRP _ hx (e ▸ lP)
      rw [knext]
      rcases hcase with ⟨rfl, rfl⟩ | ⟨rfl, rfl⟩
      · rw [if_neg hxp, if_neg hne, if_neg hxl]
      · rw [if_neg hne, if_neg hxp, if_neg hxl]
    · have hy2 : y ∈ r :: R := List.mem_cons_of_mem _ hy
      have a1 : y ≠ p := fun e => dRP _ hy2 (e ▸ pP)
      have a2 : y ≠ r := fun e => (List.nodup_cons.mp nR).1 (e ▸ hy)
      have a3 : y ≠ m := fun e => dMR _ mM (e ▸ hy2)
      rw [kprev, if_neg a1, if_neg a2, if_neg a3]
  · refine path_frame h _ p P nP hP (fun x hx hne => ?_) (fun y hy => ?_)
    · have hxl : x ≠ lastOf m M := fun e => dMP _ lM (e ▸ hx)
      have hxr : x ≠ lastOf r R := fun e => dRP _ lR (e ▸ hx)
      rw [knext]
      rcases hcase with ⟨rfl, rfl⟩ | ⟨rfl, rfl⟩
      · rw [if_neg hne, if_neg hxr, if_neg hxl]
      · rw [if_neg hxr, if_neg hne, if_neg hxl]
    · have hy2 : y ∈ p :: P := List.mem_cons_of_mem _ hy
      have a1 : y ≠ p := fun e => (List.nodup_cons.mp nP).1 (e ▸ hy)
      have a2 : y ≠ r := fun e => dRP _ rR (e ▸ hy2)
      have a3 : y ≠ m := fun e => dMP _ mM (e ▸ hy2)
      rw [kprev, if_neg a1, if_neg a2, if_neg a3]
  · exact ⟨by rw [knext, if_pos rfl], by rw [kprev, if_neg e5, if_neg e4, if_pos rfl]⟩
  · exact ⟨by rw [knext, if_neg hfpp, if_pos rfl], by rw [kprev, if_neg e6, if_pos rfl]⟩
  · exact ⟨by rw [knext, if_neg hpl.symm, if_neg hfl.symm, if_pos rfl],
      by rw [kprev, if_pos rfl]⟩

/-- Splice of the range `m :: M` out of the cycle `m :: M ++ r :: R` into
the disjoint cycle `p :: P`, immediately before `p`. -/
theorem splice_core_two (h : Heap T) (self other : list) (m r p : Ptr) (M R P : List Ptr)
    (hnd : (m :: M ++ r :: R ++ p :: P).Nodup)
    (hc1 : Cyc h (m :: (M ++ r :: R))) (hc2 : Cyc h (p :: P)) :
    Cyc (list.splice h self ⟨p⟩ other ⟨m⟩ ⟨r⟩) (r :: R) ∧
    Cyc (list.splice h self ⟨p⟩ other ⟨m⟩ ⟨r⟩) (m :: (M ++ p :: P)) := by
  simp only [Cyc, path_append_cons, lastOf_append_cons] at hc1 hc2 ⊢
  obtain ⟨⟨hM, hl, hR⟩, hf⟩ := hc1
  obtain ⟨hP, hpp⟩ := hc2
  obtain ⟨a1, a2, a3, a4, a5, a6⟩ := splice_segments h self other m r p M R P hnd hM hR hP hl
    (lastOf r R) (lastOf p P) hf hpp (Or.inl ⟨rfl, rfl⟩)
  exact ⟨⟨a2, a5⟩, ⟨a1, a6, a3⟩, a4⟩

/-- Splice of the range `m :: M` inside the single cycle
`m :: M ++ r :: R ++ p :: P`, to the position immediately before `p`. -/
theorem splice_core_one (h : Heap T) (self other : list) (m r p : Ptr) (M R P : List Ptr)
    (hnd : (m :: M ++ r :: R ++ p :: P).Nodup)
    (hc : Cyc h (m :: (M ++ r :: (R ++ p :: P)))) :
    Cyc (list.splice h self ⟨p⟩ other ⟨m⟩ ⟨r⟩) (r :: (R ++ m :: (M ++ p :: P))) := by
  simp only [Cyc, path_append_cons, lastOf_append_cons] at hc ⊢
  obtain ⟨⟨hM, hl, hR, hpp, hP⟩, hf⟩ := hc
  obtain ⟨a1, a2, a3, a4, a5, a6⟩ := splice_segments h self other m r p M R P hnd hM hR hP hl
    (lastOf p P) (lastOf r R) hf hpp (Or.inr ⟨rfl, rfl⟩)
  exact ⟨⟨a2, a4, a1, a6, a3⟩, a5⟩

theorem head_append_cons (X Y : List Ptr) (s r : Ptr) (hr : (X ++ [s]).head? = some r) :
    ∃ R, X ++ s :: Y = r :: R := by
  cases X with
  | nil => exact ⟨Y, by simp at hr; simp [hr]⟩
  | cons x X => exact ⟨X ++ s :: Y, by simp at hr; simp [hr]⟩

/-- Node-level statement of splice between two disjoint cycles with
sentinels `so` and `ss`. -/
theorem splice_two_cycles (h : Heap T) (self other : list) (so ss m r p : Ptr)
    (s1 Mn s2 d1 d2 : List Ptr)
    (hnd : ((so :: (s1 ++ m :: Mn ++ s2)) ++ (ss :: (d1 ++ d2))).Nodup)
    (hc1 : Cyc h (so :: (s1 ++ m :: Mn ++ s2))) (hc2 : Cyc h (ss :: (d1 ++ d2)))
    (hr : (s2 ++ [so]).head? = some r) (hp : (d2 ++ [ss]).head? = some p) :
    Cyc (list.splice h self ⟨p⟩ other ⟨m⟩ ⟨r⟩) (so :: (s1 ++ s2)) ∧
    Cyc (list.splice h self ⟨p⟩ other ⟨m⟩ ⟨r⟩) (ss :: (d1 ++ m :: Mn ++ d2)) := by
  obtain ⟨R, hR⟩ := head_append_cons s2 s1 so r hr
  obtain ⟨P, hP⟩ := head_append_cons d2 d1 ss p hp
  have c1 : Cyc h (m :: (Mn ++ r :: R)) := by
    rw [← hR]
    have := (cyc_rotate h (so :: s1) (m :: Mn ++ s2)).mp (by simpa using hc1)
    simpa using this
  have c2 : Cyc h (p :: P) := by
    rw [← hP]
    have := (cyc_rotate h (ss :: d1) d2).mp (by simpa using hc2)
    simpa using this
  have nd : (m :: Mn ++ r :: R ++ p :: P).Nodup := by
    rw [← hR, ← hP]
    refine (List.Perm.nodup_iff ?_).mp hnd
    rw [List.perm_iff_count]
    intro a
    simp only [List.count_append, List.count_cons, List.count_nil]
    omega
  obtain ⟨r1, r2⟩ := splice_core_two h self other m r p Mn R P nd c1 c2
  rw [← hR] at r1
  rw [← hP] at r2
  constructor
  · have := (cyc_rotate _ s2 (so :: s1)).mp r1
    simpa using this
  · have := (cyc_rotate _ (m :: Mn ++ d2) (ss :: d1)).mp (by simpa using r2)
    simpa using this

/-- Node-level statement of splice inside one cycle with sentinel `s`, when
`pos` lies after the moved range `m :: Mn` and differs from `last = c`. -/
theorem splice_one_cycle_after (h : Heap T) (self other : list) (s m c p : Ptr)
    (a Mn C r2 : List Ptr)
    (hnd : (s :: (a ++ m :: Mn ++ c :: C ++ r2)).Nodup)
    (hc : Cyc h (s :: (a ++ m :: Mn ++ c :: C ++ r2)))
    (hp : (r2 ++ [s]).head? = some p) :
    Cyc (list.splice h self ⟨p⟩ other ⟨m⟩ ⟨c⟩) (s :: (a ++ c :: C ++ m :: Mn ++ r2)) := by
  obtain ⟨P, hP⟩ := head_append_cons r2 a s p hp
  have c1 : Cyc h (m :: (Mn ++ c :: (C ++ p :: P))) := by
    rw [← hP]
    have := (cyc_rotate h (s :: a) (m :: Mn ++ c :: C ++ r2)).mp (by simpa using hc)
    simpa using this
  have nd : (m :: Mn ++ c :: C ++ p :: P).Nodup := by
    rw [← hP]
    refine (List.Perm.nodup_iff ?_).mp hnd
    rw [List.perm_iff_count]
    intro x
    simp only [List.count_append, List.count_cons, List.count_nil]
    omega
  have r1 := splice_core_one h self other m c p Mn C P nd c1
  rw [← hP] at r1
  have := (cyc_rotate _ (c :: C ++ m :: Mn ++ r2) (s :: a)).mp (by simpa using r1)
  simpa using this

/-- Node-level statement of splice inside one cycle with sentinel `s`, when
`pos = c` lies before the moved range `m :: Mn`. -/
theorem splice_one_cycle_before (h : Heap T) (self other : list) (s m c r : Ptr)
    (r1 C Mn b : List Ptr)
    (hnd : (s :: (r1 ++ c :: C ++ m :: Mn ++ b)).Nodup)
    (hc : Cyc h (s :: (r1 ++ c :: C ++ m :: Mn ++ b)))
    (hr : (b ++ [s]).head? = some r) :
    Cyc (list.splice h self ⟨c⟩ other ⟨m⟩ ⟨r⟩) (s :: (r1 ++ m :: Mn ++ c :: C ++ b)) := by
  obtain ⟨R, hR⟩ := head_append_cons b r1 s r hr
  have c1 : Cyc h (m :: (Mn ++ r :: (R ++ c :: C))) := by
    have := (cyc_rotate h (s :: r1 ++ c :: C) (m :: Mn ++ b)).mp (by simpa using hc)
    have e : m :: (Mn ++ r :: (R ++ c :: C)) = (m :: Mn ++ b) ++ (s :: r1 ++ c :: C) := by
      have : r :: (R ++ c :: C) = (b ++ s :: r1) ++ c :: C := by rw [hR]; simp
      simp [this]
    rw [e]
    exact this
  have nd : (m :: Mn ++ r :: R ++ c :: C).Nodup := by
    rw [← hR]
    refine (List.Perm.nodup_iff ?_).mp hnd
    rw [List.perm_iff_count]
    intro x
    simp only [List.count_append, List.count_cons, List.count_nil]
    omega
  have res := splice_core_one h self other m r c Mn R C nd c1
  have e : r :: (R ++ m :: (Mn ++ c :: C)) = b ++ (s :: r1 ++ m :: Mn ++ c :: C) := by
    have : r :: (R ++ m :: (Mn ++ c :: C)) = (b ++ s :: r1) ++ m :: (Mn ++ c :: C) := by
      rw [hR]; simp
    simp [this]
  rw [e] at res
  have := (cyc_rotate _ b (s :: r1 ++ m :: Mn ++ c :: C)).mp res
  simpa using this

/-! ## Traversal of a well-formed list -/

theorem walk_path (h : Heap T) (self : list) (nvs : List (Ptr × T)) (a : Ptr)
    (hp : Path h a (nvs.map Prod.fst))
    (hlast : h.next (lastOf a (nvs.map Prod.fst)) = self.fake)
    (hnot : self.fake ∉ nvs.map Prod.fst)
    (hval : ∀ nv ∈ nvs, h.value nv.1 = some nv.2)
    (fuel : Nat) (hf : nvs.length ≤ fuel) :
    list.walk h self fuel ⟨h.next a⟩ = some (nvs.map Prod.snd) := by
  induction nvs generalizing a fuel with
  | nil =>
    simp only [List.map_nil, lastOf] at hlast
    unfold list.walk
    simp [list.end_, hlast]
  | cons nv rest ih =>
    obtain ⟨b, v⟩ := nv
    simp only [List.map_cons, Path, lastOf, Linked] at hp hlast
    obtain ⟨⟨hab, -⟩, hrest⟩ := hp
    have hb : b ≠ self.fake := by
      intro e
      exact hnot (by simp [e])
    cases fuel with
    | zero => simp at hf
    | succ fuel =>
      have hv : h.value b = some v := hval (b, v) (List.mem_cons_self _ _)
      have := ih b hrest hlast (fun hm => hnot (by simp at hm ⊢; exact Or.inr hm))
        (fun nv hnv => hval nv (List.mem_cons_of_mem _ hnv)) fuel (by simpa using hf)
      unfold list.walk
      simp [list.end_, hab, hb, basic_iterator.deref, basic_iterator.inc, hv, this]

/-- Forward traversal of a well-formed list returns its elements in order,
for every amount of fuel that is at least the number of elements. -/
theorem traverse_of_WF (h : Heap T) (self : list) (nvs : List (Ptr × T))
    (hw : list.WF h self nvs) (fuel : Nat) (hf : nvs.length ≤ fuel) :
    list.traverse h self fuel = some (nvs.map Prod.snd) := by
  obtain ⟨hn, hc, -, -, hv⟩ := hw
  exact walk_path h self nvs self.fake hc.1 hc.2.1 (List.nodup_cons.mp hn).1
    (fun nv hnv => (hv nv hnv).2) fuel hf

/-! ## Splice between two lists -/

/-- Claim C1. Splice between two distinct lists is order-preserving: when
`other` is well formed with nodes `S1 ++ M ++ S2`, where `M` is the non-empty
range `[first, last)`, and `self` is a different well-formed list with nodes
`D1 ++ D2`, where `pos` is the first node of `D2` or `end()`, then after
`self.splice(pos, other, first, last)` the list `other` is well formed with
nodes `S1 ++ S2`, the list `self` is well formed with nodes
`D1 ++ M ++ D2`, and forward traversal returns exactly these element
sequences for every sufficient amount of fuel.  That the two lists are
different containers is the hypothesis that they share no node. -/
theorem splice_between_lists (h : Heap T) (self other : list)
    (pos first last : basic_iterator) (S1 M S2 D1 D2 : List (Ptr × T))
    (hO : list.WF h other (S1 ++ M ++ S2)) (hS : list.WF h self (D1 ++ D2))
    (hdisj : ∀ a ∈ other.fake :: (S1 ++ M ++ S2).map Prod.fst,
      a ∉ self.fake :: (D1 ++ D2).map Prod.fst)
    (hfirst : (M.map Prod.fst).head? = some first.p)
    (hlast : (S2.map Prod.fst ++ [other.fake]).head? = some last.p)
    (hpos : (D2.map Prod.fst ++ [self.fake]).head? = some pos.p) :
    list.WF (list.splice h self pos other first last) other (S1 ++ S2) ∧
    list.WF (list.splice h self pos other first last) self (D1 ++ M ++ D2) ∧
    (∀ fuel, (S1 ++ S2).length ≤ fuel →
      list.traverse (list.splice h self pos other first last) other fuel =
        some (S1.map Prod.snd ++ S2.map Prod.snd)) ∧
    (∀ fuel, (D1 ++ M ++ D2).length ≤ fuel →
      list.traverse (list.splice h self pos other first last) self fuel =
        some (D1.map Prod.snd ++ M.map Prod.snd ++ D2.map Prod.snd)) := by
  obtain ⟨p⟩ := pos
  obtain ⟨m⟩ := first
  obtain ⟨r⟩ := last
  cases M with
  | nil => simp at hfirst
  | cons mv M =>
  obtain ⟨m0, v⟩ := mv
  simp only [List.map_cons, List.head?_cons, Option.some.injEq] at hfirst
  subst hfirst
  obtain ⟨nO, cO, aO, vO, eO⟩ := hO
  obtain ⟨nS, cS, aS, vS, eS⟩ := hS
  simp only [List.map_append, List.map_cons] at nO cO nS cS hdisj
  have hnd : ((other.fake :: (S1.map Prod.fst ++ m0 :: M.map Prod.fst ++ S2.map Prod.fst)) ++
      (self.fake :: (D1.map Prod.fst ++ D2.map Prod.fst))).Nodup := by
    refine List.nodup_append.mpr ⟨by simpa using nO, nS, ?_⟩
    intro a ha
    exact hdisj a (by simpa using ha)
  obtain ⟨c1, c2⟩ := splice_two_cycles h self other other.fake self.fake m0 r p
    (S1.map Prod.fst) (M.map Prod.fst) (S2.map Prod.fst) (D1.map Prod.fst) (D2.map Prod.fst)
    hnd (by simpa using cO) cS hlast hpos
  have hnd2 : ((other.fake :: (S1.map Prod.fst ++ S2.map Prod.fst)) ++
      (self.fake :: (D1.map Prod.fst ++ m0 :: M.map Prod.fst ++ D2.map Prod.fst))).Nodup := by
    refine (List.Perm.nodup_iff ?_).mp hnd
    rw [List.perm_iff_count]
    intro a
    simp only [List.count_append, List.count_cons, List.count_nil]
    omega
  obtain ⟨n1, n2, -⟩ := List.nodup_append.mp hnd2
  have w1 : list.WF (list.splice h self ⟨p⟩ other ⟨m0⟩ ⟨r⟩) other (S1 ++ S2) := by
    refine ⟨by simpa using n1, by simpa using c1, ?_, ?_, ?_⟩
    · rw [splice_alloc]; exact aO
    · rw [splice_value]; exact vO
    · intro nv hnv
      rw [splice_alloc, splice_value]
      refine eO nv ?_
      simp only [List.mem_append, List.mem_cons] at hnv ⊢
      tauto
  have w2 : list.WF (list.splice h self ⟨p⟩ other ⟨m0⟩ ⟨r⟩) self (D1 ++ (m0, v) :: M ++ D2) := by
    refine ⟨by simpa using n2, by simpa using c2, ?_, ?_, ?_⟩
    · rw [splice_alloc]; exact aS
    · rw [splice_value]; exact vS
    · intro nv hnv
      rw [splice_alloc, splice_value]
      simp only [List.mem_append, List.mem_cons] at hnv
      rcases hnv with (hnv | hnv | hnv) | hnv
      · exact eS nv (by simp [hnv])
      · exact eO nv (by simp [hnv])
      · exact eO nv (by simp [hnv])
      · exact eS nv (by simp [hnv])
  refine ⟨w1, w2, ?_, ?_⟩
  · intro fuel hf
    simpa using traverse_of_WF _ other _ w1 fuel hf
  · intro fuel hf
    simpa using traverse_of_WF _ self _ w2 fuel hf

/-- Witness for claim C1: with `A = [1,2,3,4]` and `B = [10,20,30]`,
`B.splice(B.begin()+1, A, A.begin()+1, A.begin()+3)` gives `A = [1,4]` and
`B = [10,2,3,20,30]`. -/
theorem splice_between_lists_witness :
    list.WF heapAB ⟨0⟩ [(1, 1), (2, 2), (3, 3), (4, 4)] ∧
    list.WF heapAB ⟨5⟩ [(6, 10), (7, 20), (8, 30)] ∧
    list.traverse (list.splice heapAB ⟨5⟩ ⟨7⟩ ⟨0⟩ ⟨2⟩ ⟨4⟩) ⟨0⟩ 2 = some [1, 4] ∧
    list.traverse (list.splice heapAB ⟨5⟩ ⟨7⟩ ⟨0⟩ ⟨2⟩ ⟨4⟩) ⟨5⟩ 5 = some [10, 2, 3, 20, 30] :=
  have t := splice_between_lists heapAB ⟨5⟩ ⟨0⟩ ⟨7⟩ ⟨2⟩ ⟨4⟩
    [(1, 1)] [(2, 2), (3, 3)] [(4, 4)] [(6, 10)] [(7, 20), (8, 30)]
    (by decide) (by decide) (by decide) (by decide) (by decide) (by decide)
  ⟨by decide, by decide, t.2.2.1 2 (by decide), t.2.2.2 5 (by decide)⟩

/-! ## Splice within one list -/

/-- Claim C2. Splice within one list relocates the range: when the list is
well formed with nodes `A ++ M ++ B`, `M` is the non-empty range
`[first, last)`, and `pos` is a position of the remaining nodes
(`A ++ B = R1 ++ R2` with `pos` the first node of `R2`, or `end()`) other than
`last`, then after `splice(pos, *this, first, last)` the list is well formed
with nodes `R1 ++ M ++ R2`, forward traversal returns that element sequence,
the nodes and the elements are permutations of the original ones, and the
number of nodes is unchanged. -/
theorem splice_within_list (h : Heap T) (self : list)
    (pos first last : basic_iterator) (A M B R1 R2 : List (Ptr × T))
    (hW : list.WF h self (A ++ M ++ B))
    (hfirst : (M.map Prod.fst).head? = some first.p)
    (hlast : (B.map Prod.fst ++ [self.fake]).head? = some last.p)
    (hsplit : A ++ B = R1 ++ R2)
    (hpos : (R2.map Prod.fst ++ [self.fake]).head? = some pos.p)
    (hne : pos.p ≠ last.p) :
    list.WF (list.splice h self pos self first last) self (R1 ++ M ++ R2) ∧
    (∀ fuel, (A ++ M ++ B).length ≤ fuel →
      list.traverse (list.splice h self pos self first last) self fuel =
        some (R1.map Prod.snd ++ M.map Prod.snd ++ R2.map Prod.snd)) ∧
    (R1 ++ M ++ R2).Perm (A ++ M ++ B) ∧
    ((R1 ++ M ++ R2).map Prod.snd).Perm ((A ++ M ++ B).map Prod.snd) ∧
    (R1 ++ M ++ R2).length = (A ++ M ++ B).length := by
  have hperm : (R1 ++ M ++ R2).Perm (A ++ M ++ B) := by
    have e1 : (R1 ++ M ++ R2).Perm (M ++ (R1 ++ R2)) := by
      rw [← List.append_assoc]
      exact List.Perm.append_right R2 List.perm_append_comm
    have e2 : (A ++ M ++ B).Perm (M ++ (A ++ B)) := by
      rw [← List.append_assoc]
      exact List.Perm.append_right B List.perm_append_comm
    rw [← hsplit] at e1
    exact e1.trans e2.symm
  have hmem : ∀ nv, nv ∈ R1 ++ M ++ R2 → nv ∈ A ++ M ++ B := fun nv hnv => hperm.subset hnv
  have hw : list.WF (list.splice h self pos self first last) self (R1 ++ M ++ R2) := by
    obtain ⟨nW, cW, aW, vW, eW⟩ := hW
    refine ⟨?_, ?_, by rw [splice_alloc]; exact aW, by rw [splice_value]; exact vW, ?_⟩
    · have := (List.Perm.map Prod.fst hperm).nodup_iff.mpr (List.nodup_cons.mp nW).2
      refine List.nodup_cons.mpr ⟨?_, this⟩
      intro hm
      exact (List.nodup_cons.mp nW).1 ((List.Perm.map Prod.fst hperm).subset hm)
    · obtain ⟨p⟩ := pos
      obtain ⟨m⟩ := first
      obtain ⟨r⟩ := last
      cases M with
      | nil => simp at hfirst
      | cons mv M =>
      obtain ⟨m0, v⟩ := mv
      simp only [List.map_cons, List.head?_cons, Option.some.injEq] at hfirst
      subst hfirst
      rcases List.append_eq_append_iff.mp hsplit with ⟨C, rfl, rfl⟩ | ⟨C, rfl, rfl⟩
      · cases C with
        | nil =>
          simp only [List.nil_append] at hlast
          rw [hlast] at hpos
          simp only [Option.some.injEq] at hpos
          exact absurd hpos.symm hne
        | cons cw C =>
          obtain ⟨c, w⟩ := cw
          simp only [List.cons_append, List.map_cons, List.head?_cons, Option.some.injEq]
            at hlast
          subst hlast
          have := splice_one_cycle_after h self self self.fake m0 c p (A.map Prod.fst)
            (M.map Prod.fst) (C.map Prod.fst) (R2.map Prod.fst) (by simpa using nW)
            (by simpa using cW) hpos
          simpa using this
      · cases C with
        | nil =>
          simp only [List.nil_append] at hpos
          rw [hlast] at hpos
          simp only [Option.some.injEq] at hpos
          exact absurd hpos.symm hne
        | cons cw C =>
          obtain ⟨c, w⟩ := cw
          simp only [List.cons_append, List.map_cons, List.head?_cons, Option.some.injEq]
            at hpos
          subst hpos
          have := splice_one_cycle_before h self self self.fake m0 c r (R1.map Prod.fst)
            (C.map Prod.fst) (M.map Prod.fst) (B.map Prod.fst) (by simpa using nW)
            (by simpa using cW) hlast
          simpa using this
    · intro nv hnv
      rw [splice_alloc, splice_value]
      exact eW nv (hmem nv hnv)
  refine ⟨hw, ?_, hperm, hperm.map Prod.snd, hperm.length_eq⟩
  intro fuel hf
  have := traverse_of_WF _ self _ hw fuel (by rw [hperm.length_eq]; exact hf)
  simpa using this

/-- Witness for claim C2: in `A = [1,2,3,4]`, moving the range holding `[3]`
to the front (`pos = begin()`) gives `[3,1,2,4]`. -/
theorem splice_within_list_witness :
    list.WF heapAB ⟨0⟩ [(1, 1), (2, 2), (3, 3), (4, 4)] ∧
    list.traverse (list.splice heapAB ⟨0⟩ ⟨1⟩ ⟨0⟩ ⟨3⟩ ⟨4⟩) ⟨0⟩ 4 = some [3, 1, 2, 4] :=
  have t := splice_within_list heapAB ⟨0⟩ ⟨1⟩ ⟨3⟩ ⟨4⟩
    [(1, 1), (2, 2)] [(3, 3)] [(4, 4)] [] [(1, 1), (2, 2), (4, 4)]
    (by decide) (by decide) (by decide) (by decide) (by decide) (by decide)
  ⟨by decide, t.2.1 4 (by decide)⟩

/-! ## Frame of splice -/

/-- Claim C3. Splice only rewrites boundary links: for every heap and all
arguments, `splice(pos, other, first, last)` leaves the allocation state and
every stored element unchanged, leaves the `next` field of every node other
than `pos.prev`, `first.prev` and `last.prev` (taken in the pre-state)
unchanged, and leaves the `prev` field of every node other than `pos`, `first`
and `last` unchanged; hence every cursor dereferences to the same element as
before. -/
theorem splice_frame (h : Heap T) (self other : list) (pos first last : basic_iterator) :
    (list.splice h self pos other first last).alloc = h.alloc ∧
    (list.splice h self pos other first last).value = h.value ∧
    (∀ a, a ≠ h.prev pos.p → a ≠ h.prev first.p → a ≠ h.prev last.p →
      (list.splice h self pos other first last).next a = h.next a) ∧
    (∀ a, a ≠ pos.p → a ≠ first.p → a ≠ last.p →
      (list.splice h self pos other first last).prev a = h.prev a) ∧
    (∀ it : basic_iterator,
      it.deref (list.splice h self pos other first last) = it.deref h) := by
  refine ⟨splice_alloc h self other pos first last, splice_value h self other pos first last,
    ?_, ?_, ?_⟩
  · intro a h1 h2 h3
    simp [list.splice, triswap, Heap.write, Heap.read, Function.update_apply, h1, h2, h3]
  · intro a h1 h2 h3
    simp [list.splice, triswap, Heap.write, Heap.read, Function.update_apply, h1, h2, h3]
  · intro it
    simp [basic_iterator.deref, splice_value]

/-! ## Insert -/

theorem insert_value (h : Heap T) (self : list) (pos : basic_iterator) (v : T) (n : Ptr) :
    (list.insert h self pos v n).1.value = Function.update h.value n (some v) := by
  simp [list.insert, Heap.new_vnode, Heap.write]

theorem insert_alloc (h : Heap T) (self : list) (pos : basic_iterator) (v : T) (n : Ptr) :
    (list.insert h self pos v n).1.alloc = Function.update h.alloc n true := by
  simp [list.insert, Heap.new_vnode, Heap.write]

theorem insert_next (h : Heap T) (self : list) (pos : basic_iterator) (v : T) (n : Ptr)
    (hn : n ≠ pos.p) (x : Ptr) :
    (list.insert h self pos v n).1.next x =
      if x = h.prev pos.p then n else if x = n then pos.p else h.next x := by
  simp [list.insert, Heap.new_vnode, Heap.write, Function.update_apply, hn]

theorem insert_prev (h : Heap T) (self : list) (pos : basic_iterator) (v : T) (n : Ptr)
    (x : Ptr) :
    (list.insert h self pos v n).1.prev x =
      if x = pos.p then n else if x = n then h.prev pos.p else h.prev x := by
  simp [list.insert, Heap.new_vnode, Heap.write, Function.update_apply]

/-- Inserting the fresh node `n` before `p` in the cycle `p :: P` gives the
cycle `n :: p :: P`. -/
theorem insert_cycle (h : Heap T) (self : list) (p : Ptr) (P : List Ptr) (v : T) (n : Ptr)
    (hnd : (p :: P).Nodup) (hc : Cyc h (p :: P)) (hn : n ∉ p :: P) :
    Cyc (list.insert h self ⟨p⟩ v n).1 (n :: p :: P) := by
  obtain ⟨hP, hq1, hq2⟩ := hc
  have hnp : n ≠ p := fun e => hn (e ▸ List.mem_cons_self _ _)
  have hlm := lastOf_mem P p
  have hnq : n ≠ lastOf p P := fun e => hn (e ▸ hlm)
  refine ⟨⟨⟨?_, ?_⟩, ?_⟩, ⟨?_, ?_⟩⟩
  · rw [insert_next h self ⟨p⟩ v n hnp, hq2, if_neg hnq, if_pos rfl]
  · rw [insert_prev, if_pos rfl]
  · refine path_frame h _ p P hnd hP (fun x hx hne => ?_) (fun y hy => ?_)
    · have a1 : x ≠ n := fun e => hn (e ▸ hx)
      rw [insert_next h self ⟨p⟩ v n hnp, hq2, if_neg hne, if_neg a1]
    · have a1 : y ≠ n := fun e => hn (e ▸ List.mem_cons_of_mem _ hy)
      have a2 : y ≠ p := fun e => (List.nodup_cons.mp hnd).1 (e ▸ hy)
      rw [insert_prev, if_neg a2, if_neg a1]
  · simp only [lastOf]
    rw [insert_next h self ⟨p⟩ v n hnp, hq2, if_pos rfl]
  · simp only [lastOf]
    rw [insert_prev, if_neg hnp, if_pos rfl, hq2]

/-- Effect of `insert` on a well-formed list, shared by the results on
`insert`, `push_front`, `push_back` and `clear`. -/
theorem insert_spec (h : Heap T) (self : list) (pos : basic_iterator) (v : T) (n : Ptr)
    (A B : List (Ptr × T))
    (hW : list.WF h self (A ++ B))
    (hpos : (B.map Prod.fst ++ [self.fake]).head? = some pos.p)
    (hfresh : h.alloc n = false) :
    list.WF (list.insert h self pos v n).1 self (A ++ [(n, v)] ++ B) ∧
    (list.insert h self pos v n).2.p = n ∧
    (list.insert h self pos v n).2.deref (list.insert h self pos v n).1 = some v ∧
    (list.insert h self pos v n).1.next n = pos.p ∧
    (list.insert h self pos v n).1.prev n = h.prev pos.p := by
  obtain ⟨p⟩ := pos
  obtain ⟨nW, cW, aW, vW, eW⟩ := hW
  simp only [List.map_append] at nW cW
  obtain ⟨P, hP⟩ := head_append_cons (B.map Prod.fst) (A.map Prod.fst) self.fake p hpos
  have hperm : (p :: P).Perm (self.fake :: (A.map Prod.fst ++ B.map Prod.fst)) := by
    rw [← hP, List.perm_iff_count]
    intro x
    simp only [List.count_append, List.count_cons, List.count_nil]
    omega
  have hall : ∀ x ∈ self.fake :: (A.map Prod.fst ++ B.map Prod.fst), h.alloc x = true := by
    intro x hx
    simp only [List.mem_cons, List.mem_append, List.mem_map] at hx
    rcases hx with rfl | ⟨nv, hnv, rfl⟩ | ⟨nv, hnv, rfl⟩
    · exact aW
    · exact (eW nv (by simp [hnv])).1
    · exact (eW nv (by simp [hnv])).1
  have hnot : n ∉ self.fake :: (A.map Prod.fst ++ B.map Prod.fst) := by
    intro hm
    have := hall n hm
    rw [hfresh] at this
    exact Bool.false_ne_true this
  have hnP : n ∉ p :: P := fun hm => hnot (hperm.subset hm)
  have hnp : n ≠ p := fun e => hnP (e ▸ List.mem_cons_self _ _)
  have c0 : Cyc h (p :: P) := by
    rw [← hP]
    have := (cyc_rotate h (self.fake :: A.map Prod.fst) (B.map Prod.fst)).mp (by simpa using cW)
    simpa using this
  have c1 := insert_cycle h self p P v n (hperm.nodup_iff.mpr nW) c0 hnP
  have c2 : Cyc (list.insert h self ⟨p⟩ v n).1
      (self.fake :: (A.map Prod.fst ++ n :: B.map Prod.fst)) := by
    rw [← hP] at c1
    have := (cyc_rotate _ (n :: B.map Prod.fst) (self.fake :: A.map Prod.fst)).mp
      (by simpa using c1)
    simpa using this
  have hw : list.WF (list.insert h self ⟨p⟩ v n).1 self (A ++ [(n, v)] ++ B) := by
    refine ⟨?_, by simpa using c2, ?_, ?_, ?_⟩
    · have : (self.fake :: (A.map Prod.fst ++ n :: B.map Prod.fst)).Perm
          (n :: self.fake :: (A.map Prod.fst ++ B.map Prod.fst)) := by
        rw [List.perm_iff_count]
        intro x
        simp only [List.count_append, List.count_cons, List.count_nil]
        omega
      have := this.nodup_iff.mpr (List.nodup_cons.mpr ⟨hnot, nW⟩)
      simpa using this
    · rw [insert_alloc, Function.update_apply]
      simp [aW]
    · have : self.fake ≠ n := fun e => hnot (e ▸ List.mem_cons_self _ _)
      rw [insert_value, Function.update_apply, if_neg this]
      exact vW
    · intro nv hnv
      rw [insert_alloc, insert_value, Function.update_apply, Function.update_apply]
      simp only [List.mem_append, List.mem_singleton] at hnv
      rcases hnv with (hnv | rfl) | hnv
      · have hin : nv.1 ∈ self.fake :: (A.map Prod.fst ++ B.map Prod.fst) := by
          simp only [List.mem_cons, List.mem_append, List.mem_map]
          exact Or.inr (Or.inl ⟨nv, hnv, rfl⟩)
        have hne : nv.1 ≠ n := fun e => hnot (e ▸ hin)
        simp only [if_neg hne]
        exact eW nv (by simp [hnv])
      · simp
      · have hin : nv.1 ∈ self.fake :: (A.map Prod.fst ++ B.map Prod.fst) := by
          simp only [List.mem_cons, List.mem_append, List.mem_map]
          exact Or.inr (Or.inr ⟨nv, hnv, rfl⟩)
        have hne : nv.1 ≠ n := fun e => hnot (e ▸ hin)
        simp only [if_neg hne]
        exact eW nv (by simp [hnv])
  refine ⟨hw, rfl, ?_, ?_, ?_⟩
  · show (list.insert h self ⟨p⟩ v n).1.value n = some v
    rw [insert_value, Function.update_same]
  · have hq : n ≠ h.prev p := by
      intro e
      have hm := lastOf_mem P p
      rw [← c0.2.2, ← e] at hm
      exact hnP hm
    rw [insert_next h self ⟨p⟩ v n hnp, if_neg hq, if_pos rfl]
  · rw [insert_prev, if_neg hnp, if_pos rfl]

/-- Claim C4. `insert(pos, v)` links a new element immediately before `pos`:
when the list is well formed with nodes `A ++ B`, `pos` is the first node of
`B` or `end()`, and `n` is the address of the newly allocated node, then after
the call the list is well formed with nodes `A ++ [(n, v)] ++ B`, forward
traversal returns the elements of `A`, then `v`, then the elements of `B`, the
returned cursor references `n`, which holds `v`, whose `next` is the node of
`pos` and whose `prev` is the node that preceded `pos` before the call. -/
theorem insert_before_pos (h : Heap T) (self : list) (pos : basic_iterator) (v : T) (n : Ptr)
    (A B : List (Ptr × T))
    (hW : list.WF h self (A ++ B))
    (hpos : (B.map Prod.fst ++ [self.fake]).head? = some pos.p)
    (hfresh : h.alloc n = false) :
    list.WF (list.insert h self pos v n).1 self (A ++ [(n, v)] ++ B) ∧
    (∀ fuel, (A ++ B).length + 1 ≤ fuel →
      list.traverse (list.insert h self pos v n).1 self fuel =
        some (A.map Prod.snd ++ [v] ++ B.map Prod.snd)) ∧
    (list.insert h self pos v n).2.p = n ∧
    (list.insert h self pos v n).2.deref (list.insert h self pos v n).1 = some v ∧
    (list.insert h self pos v n).1.next n = pos.p ∧
    (list.insert h self pos v n).1.prev n = h.prev pos.p := by
  obtain ⟨hw, e1, e2, e3, e4⟩ := insert_spec h self pos v n A B hW hpos hfresh
  refine ⟨hw, ?_, e1, e2, e3, e4⟩
  intro fuel hf
  have := traverse_of_WF _ self _ hw fuel (by simpa using hf)
  simpa using this

/-- Witness for claim C4: inserting 7 at a new node 9 before the node
holding 3 of `A = [1,2,3,4]` gives `[1,2,7,3,4]`. -/
theorem insert_before_pos_witness :
    list.WF heapAB ⟨0⟩ [(1, 1), (2, 2), (3, 3), (4, 4)] ∧
    list.traverse (list.insert heapAB ⟨0⟩ ⟨3⟩ 7 9).1 ⟨0⟩ 5 = some [1, 2, 7, 3, 4] :=
  have t := insert_before_pos heapAB ⟨0⟩ ⟨3⟩ 7 9 [(1, 1), (2, 2)] [(3, 3), (4, 4)]
    (by decide) (by decide) (by decide)
  ⟨by decide, t.2.1 5 (by decide)⟩

/-- Claim C5. Insertion does not invalidate existing cursors: when `n` is the
address of the newly allocated node, every node allocated before
`insert(pos, v)`, `push_front(v)` or `push_back(v)` is still allocated
afterwards and holds the same element, so every cursor to such a node
dereferences to the same value as before. -/
theorem insert_keeps_cursors (h : Heap T) (self : list) (pos : basic_iterator) (v : T)
    (n : Ptr) (hfresh : h.alloc n = false) :
    (∀ it : basic_iterator, h.alloc it.p = true →
      (list.insert h self pos v n).1.alloc it.p = true ∧
      it.deref (list.insert h self pos v n).1 = it.deref h) ∧
    (∀ it : basic_iterator, h.alloc it.p = true →
      (list.push_front h self v n).alloc it.p = true ∧
      it.deref (list.push_front h self v n) = it.deref h) ∧
    (∀ it : basic_iterator, h.alloc it.p = true →
      (list.push_back h self v n).alloc it.p = true ∧
      it.deref (list.push_back h self v n) = it.deref h) := by
  have key : ∀ (q it : basic_iterator), h.alloc it.p = true →
      (list.insert h self q v n).1.alloc it.p = true ∧
      it.deref (list.insert h self q v n).1 = it.deref h := by
    intro q it hit
    have hne : it.p ≠ n := by
      intro e
      rw [e, hfresh] at hit
      exact Bool.false_ne_true hit
    simp only [basic_iterator.deref]
    rw [insert_alloc, insert_value, Function.update_apply, Function.update_apply, if_neg hne,
      if_neg hne]
    exact ⟨hit, rfl⟩
  exact ⟨key pos, key (list.begin h self), key (list.end_ self)⟩

/-- Witness for claim C5: after `list L; L.push_back(5); auto it = L.begin();
L.push_front(1);` the cursor `it` still dereferences to 5. -/
theorem insert_keeps_cursors_witness :
    heapL.alloc 2 = false ∧ list.begin heapL ⟨0⟩ = ⟨1⟩ ∧
    (list.begin heapL ⟨0⟩).deref (list.push_front heapL ⟨0⟩ 1 2) = some 5 :=
  have t := insert_keeps_cursors heapL ⟨0⟩ ⟨0⟩ 1 2 (by decide)
  ⟨by decide, by decide, ((t.2.1 (list.begin heapL ⟨0⟩) (by decide)).2).trans (by decide)⟩

/-! ## Erase -/

theorem erase_value (h : Heap T) (self : list) (pos : basic_iterator) :
    (list.erase h self pos).1.value = Function.update h.value pos.p none := by
  simp [list.erase, Heap.delete, Heap.write]

theorem erase_alloc (h : Heap T) (self : list) (pos : basic_iterator) :
    (list.erase h self pos).1.alloc = Function.update h.alloc pos.p false := by
  simp [list.erase, Heap.delete, Heap.write]

theorem erase_next (h : Heap T) (self : list) (pos : basic_iterator) (x : Ptr) :
    (list.erase h self pos).1.next x =
      if x = h.prev pos.p then h.next pos.p else h.next x := by
  simp [list.erase, Heap.delete, Heap.write, Function.update_apply]

theorem erase_prev (h : Heap T) (self : list) (pos : basic_iterator) (x : Ptr) :
    (list.erase h self pos).1.prev x =
      if x = h.next pos.p then h.prev pos.p else h.prev x := by
  simp only [list.erase, Heap.delete, Heap.write, Function.update_apply]
  split_ifs <;> rfl

theorem erase_result (h : Heap T) (self : list) (pos : basic_iterator) :
    (list.erase h self pos).2 = ⟨h.next pos.p⟩ := rfl

/-- Erasing `p` from the cycle `p :: r :: P` gives the cycle `r :: P`. -/
theorem erase_cycle (h : Heap T) (self : list) (p r : Ptr) (P : List Ptr)
    (hnd : (p :: r :: P).Nodup) (hc : Cyc h (p :: r :: P)) :
    Cyc (list.erase h self ⟨p⟩).1 (r :: P) ∧ h.next p = r := by
  obtain ⟨⟨hpr, hP⟩, hq⟩ := hc
  simp only [lastOf] at hq
  have nrP := (List.nodup_cons.mp hnd).2
  refine ⟨⟨?_, ?_, ?_⟩, hpr.1⟩
  · refine path_frame h _ r P nrP hP (fun x _ hne => ?_) (fun y hy => ?_)
    · rw [erase_next, hq.2, if_neg hne]
    · have a1 : y ≠ r := fun e => (List.nodup_cons.mp nrP).1 (e ▸ hy)
      rw [erase_prev, hpr.1, if_neg a1]
  · rw [erase_next, hq.2, if_pos rfl]
    exact hpr.1
  · rw [erase_prev, hpr.1, if_pos rfl]
    exact hq.2

theorem exists_head_cons (X Y : List Ptr) (s : Ptr) :
    ∃ r R, (X ++ [s]).head? = some r ∧ X ++ s :: Y = r :: R := by
  cases X with
  | nil => exact ⟨s, Y, by simp, by simp⟩
  | cons x X => exact ⟨x, X ++ s :: Y, by simp, by simp⟩

/-- Effect of `erase(pos)` on a well-formed list, shared by the results on
`erase`, range erase, `pop_front` and `pop_back`. -/
theorem erase_spec (h : Heap T) (self : list) (pos : basic_iterator)
    (A B : List (Ptr × T)) (x : T)
    (hW : list.WF h self (A ++ [(pos.p, x)] ++ B)) :
    list.WF (list.erase h self pos).1 self (A ++ B) ∧
    (B.map Prod.fst ++ [self.fake]).head? = some (list.erase h self pos).2.p ∧
    (list.erase h self pos).1.alloc pos.p = false ∧
    (∀ a, a ≠ pos.p →
      (list.erase h self pos).1.alloc a = h.alloc a ∧
      (list.erase h self pos).1.value a = h.value a) := by
  obtain ⟨p⟩ := pos
  obtain ⟨nW, cW, aW, vW, eW⟩ := hW
  simp only [List.map_append, List.map_cons, List.map_nil] at nW cW
  obtain ⟨r, P, hr, hP⟩ := exists_head_cons (B.map Prod.fst) (A.map Prod.fst) self.fake
  have hperm : (p :: r :: P).Perm
      (self.fake :: (A.map Prod.fst ++ [p] ++ B.map Prod.fst)) := by
    rw [← hP, List.perm_iff_count]
    intro y
    simp only [List.count_append, List.count_cons, List.count_nil]
    omega
  have c0 : Cyc h (p :: r :: P) := by
    rw [← hP]
    have := (cyc_rotate h (self.fake :: A.map Prod.fst) (p :: B.map Prod.fst)).mp
      (by simpa using cW)
    simpa using this
  obtain ⟨c1, hnext⟩ := erase_cycle h self p r P (hperm.nodup_iff.mpr nW) c0
  have c2 : Cyc (list.erase h self ⟨p⟩).1 (self.fake :: (A.map Prod.fst ++ B.map Prod.fst)) := by
    rw [← hP] at c1
    have := (cyc_rotate _ (B.map Prod.fst) (self.fake :: A.map Prod.fst)).mp c1
    simpa using this
  have hnd2 : (p :: self.fake :: (A.map Prod.fst ++ B.map Prod.fst)).Nodup := by
    refine (List.Perm.nodup_iff ?_).mp nW
    rw [List.perm_iff_count]
    intro y
    simp only [List.count_append, List.count_cons, List.count_nil]
    omega
  obtain ⟨hpn, nAB⟩ := List.nodup_cons.mp hnd2
  have hw : list.WF (list.erase h self ⟨p⟩).1 self (A ++ B) := by
    refine ⟨by simpa using nAB, by simpa using c2, ?_, ?_, ?_⟩
    · have : self.fake ≠ p := fun e => hpn (e ▸ List.mem_cons_self _ _)
      rw [erase_alloc, Function.update_apply, if_neg this]
      exact aW
    · have : self.fake ≠ p := fun e => hpn (e ▸ List.mem_cons_self _ _)
      rw [erase_value, Function.update_apply, if_neg this]
      exact vW
    · intro nv hnv
      have hin : nv.1 ∈ self.fake :: (A.map Prod.fst ++ B.map Prod.fst) := by
        simp only [List.mem_cons, List.mem_append, List.mem_map]
        rcases List.mem_append.mp hnv with hnv | hnv
        · exact Or.inr (Or.inl ⟨nv, hnv, rfl⟩)
        · exact Or.inr (Or.inr ⟨nv, hnv, rfl⟩)
      have hne : nv.1 ≠ p := fun e => hpn (e ▸ hin)
      rw [erase_alloc, erase_value, Function.update_apply, Function.update_apply, if_neg hne,
        if_neg hne]
      refine eW nv ?_
      simp only [List.mem_append, List.mem_singleton] at hnv ⊢
      tauto
  refine ⟨hw, ?_, ?_, ?_⟩
  · rw [hr, erase_result, hnext]
  · rw [erase_alloc, Function.update_same]
  · intro a ha
    rw [erase_alloc, erase_value, Function.update_apply, Function.update_apply, if_neg ha,
      if_neg ha]
    exact ⟨rfl, rfl⟩

/-- Claim C6. `erase(pos)` removes exactly one element and returns its
successor: when the list is well formed with nodes `A ++ [(p, x)] ++ B` and
`pos` references `p`, then after the call the list is well formed with nodes
`A ++ B`, forward traversal returns the elements of `A` followed by those of
`B`, the returned cursor references the first node of `B` or is `end()`, the
node `p` is released, and every other node keeps its allocation state and its
stored element. -/
theorem erase_at_pos (h : Heap T) (self : list) (pos : basic_iterator)
    (A B : List (Ptr × T)) (x : T)
    (hW : list.WF h self (A ++ [(pos.p, x)] ++ B)) :
    list.WF (list.erase h self pos).1 self (A ++ B) ∧
    (∀ fuel, (A ++ B).length ≤ fuel →
      list.traverse (list.erase h self pos).1 self fuel =
        some (A.map Prod.snd ++ B.map Prod.snd)) ∧
    (B.map Prod.fst ++ [self.fake]).head? = some (list.erase h self pos).2.p ∧
    (list.erase h self pos).1.alloc pos.p = false ∧
    (∀ a, a ≠ pos.p →
      (list.erase h self pos).1.alloc a = h.alloc a ∧
      (list.erase h self pos).1.value a = h.value a) := by
  obtain ⟨hw, e1, e2, e3⟩ := erase_spec h self pos A B x hW
  refine ⟨hw, ?_, e1, e2, e3⟩
  intro fuel hf
  simpa using traverse_of_WF _ self _ hw fuel hf

/-- Witness for claim C6: erasing the node holding 2 of `A = [1,2,3,4]`
gives `[1,3,4]` and returns the cursor to the node holding 3. -/
theorem erase_at_pos_witness :
    list.WF heapAB ⟨0⟩ [(1, 1), (2, 2), (3, 3), (4, 4)] ∧
    list.traverse (list.erase heapAB ⟨0⟩ ⟨2⟩).1 ⟨0⟩ 3 = some [1, 3, 4] ∧
    (list.erase heapAB ⟨0⟩ ⟨2⟩).2 = ⟨3⟩ :=
  have t := erase_at_pos heapAB ⟨0⟩ ⟨2⟩ [(1, 1)] [(3, 3), (4, 4)] 2 (by decide)
  ⟨by decide, t.2.1 3 (by decide), by decide⟩

/-! ## Range erase and clear -/

theorem erase_range_done (h : Heap T) (self : list) (fuel : Nat) (first last : basic_iterator)
    (he : first = last) : list.erase_range h self fuel first last = some (h, last) := by
  unfold list.erase_range
  simp [he]

theorem erase_range_zero (h : Heap T) (self : list) (first last : basic_iterator)
    (hne : first ≠ last) : list.erase_range h self 0 first last = none := by
  unfold list.erase_range
  simp [hne]

theorem erase_range_succ (h : Heap T) (self : list) (fuel : Nat) (first last : basic_iterator)
    (hne : first ≠ last) :
    list.erase_range h self (fuel + 1) first last =
      list.erase_range (list.erase h self first).1 self fuel (list.erase h self first).2 last := by
  rw [list.erase_range]
  simp [hne]

/-- Effect of the loop of `erase(first, last)` on a well-formed list, shared
by the results on range erase and `clear`. -/
theorem erase_range_loop (h : Heap T) (self : list) (first last : basic_iterator)
    (A M B : List (Ptr × T))
    (hW : list.WF h self (A ++ M ++ B))
    (hfirst : ((M ++ B).map Prod.fst ++ [self.fake]).head? = some first.p)
    (hlast : (B.map Prod.fst ++ [self.fake]).head? = some last.p) :
    (∀ fuel, fuel < M.length → list.erase_range h self fuel first last = none) ∧
    ∃ h', (∀ fuel, M.length ≤ fuel →
        list.erase_range h self fuel first last = some (h', last)) ∧
      list.WF h' self (A ++ B) ∧
      (∀ a ∈ M.map Prod.fst, h'.alloc a = false) ∧
      (∀ a, a ∉ M.map Prod.fst → h'.alloc a = h.alloc a ∧ h'.value a = h.value a) := by
  induction M generalizing h first with
  | nil =>
    have he : first = last := by
      obtain ⟨f⟩ := first
      obtain ⟨l⟩ := last
      simp only [List.nil_append] at hfirst
      rw [hfirst] at hlast
      simpa using hlast
    refine ⟨fun fuel hf => absurd hf (by simp), h, fun fuel _ => ?_, by simpa using hW,
      by simp, fun a _ => ⟨rfl, rfl⟩⟩
    exact erase_range_done h self fuel first last he
  | cons mx M ih =>
    obtain ⟨m, x⟩ := mx
    obtain ⟨f⟩ := first
    simp only [List.cons_append, List.map_cons, List.head?_cons, Option.some.injEq] at hfirst
    subst hfirst
    have hne : (⟨m⟩ : basic_iterator) ≠ last := by
      intro e
      have hn := hW.1
      simp only [List.map_append, List.map_cons] at hn
      have hmem : last.p ∈ self.fake :: List.map Prod.fst B := by
        cases hB : List.map Prod.fst B with
        | nil =>
          rw [hB] at hlast
          simp only [List.nil_append, List.head?_cons, Option.some.injEq] at hlast
          simp [hlast]
        | cons b B2 =>
          rw [hB] at hlast
          simp only [List.cons_append, List.head?_cons, Option.some.injEq] at hlast
          simp [hlast]
      rw [← e] at hmem
      have hp : (self.fake :: (List.map Prod.fst A ++ m :: List.map Prod.fst M ++
          List.map Prod.fst B)).count m = 1 :=
        List.count_eq_one_of_mem hn (by simp)
      have h2 : 1 ≤ (self.fake :: List.map Prod.fst B).count m :=
        List.count_pos_iff.mpr hmem
      simp only [List.count_append, List.count_cons, List.count_nil, beq_self_eq_true,
        if_true] at hp h2
      omega
    have hW2 : list.WF h self (A ++ [(m, x)] ++ (M ++ B)) := by simpa using hW
    obtain ⟨w1, hret, hfree, hkeep⟩ := erase_spec h self ⟨m⟩ A (M ++ B) x hW2
    obtain ⟨i1, h', i2, i3, i5, i6⟩ := ih (list.erase h self ⟨m⟩).1
      (list.erase h self ⟨m⟩).2 (by simpa using w1) hret
    have hmM : m ∉ M.map Prod.fst := by
      have hn := hW.1
      simp only [List.map_append, List.map_cons] at hn
      have hp : (self.fake :: (List.map Prod.fst A ++ m :: List.map Prod.fst M ++
          List.map Prod.fst B)).count m = 1 :=
        List.count_eq_one_of_mem hn (by simp)
      intro hm
      have h2 : 1 ≤ (List.map Prod.fst M).count m := List.count_pos_iff.mpr hm
      simp only [List.count_append, List.count_cons, List.count_nil, beq_self_eq_true,
        if_true] at hp
      omega
    refine ⟨?_, h', ?_, i3, ?_, ?_⟩
    rotate_left 2
    · intro a ha
      simp only [List.map_cons, List.mem_cons] at ha
      rcases ha with rfl | ha
      · rw [(i6 a hmM).1]
        exact hfree
      · exact i5 a ha
    · intro a ha
      simp only [List.map_cons, List.mem_cons, not_or] at ha
      obtain ⟨k1, k2⟩ := i6 a ha.2
      obtain ⟨k3, k4⟩ := hkeep a ha.1
      exact ⟨k1.trans k3, k2.trans k4⟩
    · intro fuel hf
      cases fuel with
      | zero => exact erase_range_zero h self ⟨m⟩ last hne
      | succ fuel =>
        rw [erase_range_succ h self fuel ⟨m⟩ last hne]
        exact i1 fuel (by simpa using hf)
    · intro fuel hf
      cases fuel with
      | zero => simp at hf
      | succ fuel =>
        rw [erase_range_succ h self fuel ⟨m⟩ last hne]
        exact i2 fuel (by simpa using hf)

/-- Claim C7. Range erase removes exactly `[first, last)` and returns `last`:
when the list is well formed with nodes `A ++ M ++ B`, `first` is the first
node of `M ++ B` or `end()`, and `last` is the first node of `B` or `end()`,
the loop of `erase(first, last)` needs exactly `|M|` executions of its body
(it does not finish with less fuel and finishes with any fuel of at least
`|M|`), it returns the cursor `last`, and afterwards the list is well formed
with nodes `A ++ B`, forward traversal returns the elements of `A`
followed by those of `B`, the nodes of `M` are released and every other
address keeps its allocation state and stored element. -/
theorem erase_range_spec (h : Heap T) (self : list) (first last : basic_iterator)
    (A M B : List (Ptr × T))
    (hW : list.WF h self (A ++ M ++ B))
    (hfirst : ((M ++ B).map Prod.fst ++ [self.fake]).head? = some first.p)
    (hlast : (B.map Prod.fst ++ [self.fake]).head? = some last.p) :
    (∀ fuel, fuel < M.length → list.erase_range h self fuel first last = none) ∧
    ∃ h', (∀ fuel, M.length ≤ fuel →
        list.erase_range h self fuel first last = some (h', last)) ∧
      list.WF h' self (A ++ B) ∧
      (∀ fuel, (A ++ B).length ≤ fuel →
        list.traverse h' self fuel = some (A.map Prod.snd ++ B.map Prod.snd)) ∧
      (∀ a ∈ M.map Prod.fst, h'.alloc a = false) ∧
      (∀ a, a ∉ M.map Prod.fst → h'.alloc a = h.alloc a ∧ h'.value a = h.value a) := by
  obtain ⟨e1, h', e2, hw, e3, e4⟩ := erase_range_loop h self first last A M B hW hfirst hlast
  refine ⟨e1, h', e2, hw, ?_, e3, e4⟩
  intro fuel hf
  simpa using traverse_of_WF _ self _ hw fuel hf

/-- Witness for claim C7: erasing the range holding `[2,3]` of
`A = [1,2,3,4]` takes two erases, returns `last` and leaves `[1,4]`. -/
theorem erase_range_spec_witness :
    list.WF heapAB ⟨0⟩ [(1, 1), (2, 2), (3, 3), (4, 4)] ∧
    list.erase_range heapAB ⟨0⟩ 1 ⟨2⟩ ⟨4⟩ = none ∧
    (list.erase_range heapAB ⟨0⟩ 2 ⟨2⟩ ⟨4⟩).map Prod.snd = some ⟨4⟩ ∧
    ((list.erase_range heapAB ⟨0⟩ 2 ⟨2⟩ ⟨4⟩).bind
      (fun r => list.traverse r.1 ⟨0⟩ 2)) = some [1, 4] :=
  have t := erase_range_spec heapAB ⟨0⟩ ⟨2⟩ ⟨4⟩ [(1, 1)] [(2, 2), (3, 3)] [(4, 4)]
    (by decide) (by decide) (by decide)
  ⟨by decide, t.1 1 (by decide), by decide, by decide⟩

theorem begin_of_WF (h : Heap T) (self : list) (nvs : List (Ptr × T))
    (hW : list.WF h self nvs) :
    (nvs.map Prod.fst ++ [self.fake]).head? = some (list.begin h self).p := by
  obtain ⟨-, cW, -⟩ := hW
  cases nvs with
  | nil => simpa [list.begin] using cW.2.1.symm
  | cons nv rest =>
    have := cW.1.1.1
    simpa [list.begin] using this.symm

theorem prev_end_of_WF (h : Heap T) (self : list) (nvs : List (Ptr × T)) (q : Ptr) (y : T)
    (hW : list.WF h self (nvs ++ [(q, y)])) : ((list.end_ self).dec h).p = q := by
  obtain ⟨-, cW, -⟩ := hW
  have := cW.2.2
  simp only [List.map_append, List.map_cons, List.map_nil, lastOf_append_cons, lastOf] at this
  exact this

theorem empty_of_WF (h : Heap T) (self : list) (nvs : List (Ptr × T))
    (hW : list.WF h self nvs) : list.empty h self = true ↔ nvs = [] := by
  obtain ⟨nW, cW, -⟩ := hW
  cases nvs with
  | nil => simpa [list.empty] using cW.2.1
  | cons nv rest =>
    have h1 : h.next self.fake = nv.1 := cW.1.1.1
    have h2 : self.fake ≠ nv.1 := by
      intro e
      exact (List.nodup_cons.mp nW).1 (by simp [← e])
    simp only [list.empty, decide_eq_true_eq, h1]
    constructor
    · intro e
      exact absurd e.symm h2
    · intro e
      simp at e

theorem ctor_WF (h : Heap T) (s : Ptr) : list.WF (list.ctor h s).1 (list.ctor h s).2 [] := by
  refine ⟨by simp, ⟨trivial, ?_, ?_⟩, ?_, ?_, ?_⟩ <;> simp [list.ctor, lastOf]

/-- Claim C8. `clear()` resets the list to the freshly constructed state: for
a well-formed list with nodes `nvs`, `clear()` finishes for every fuel of at
least `|nvs|`, and in the resulting heap `empty()` is true, the sentinel's
`next` and `prev` both reference the sentinel, as they do after the default
constructor, every former value node is released, and a subsequent
`push_back(v)` at a newly allocated node yields the one-element sequence
`[v]`. -/
theorem clear_resets (h : Heap T) (self : list) (nvs : List (Ptr × T))
    (hW : list.WF h self nvs) :
    ∃ h', (∀ fuel, nvs.length ≤ fuel → list.clear h self fuel = some h') ∧
      list.empty h' self = true ∧
      h'.next self.fake = self.fake ∧ h'.prev self.fake = self.fake ∧
      list.WF h' self [] ∧
      (∀ a ∈ nvs.map Prod.fst, h'.alloc a = false) ∧
      (∀ (h0 : Heap T) (s : Ptr),
        list.empty (list.ctor h0 s).1 (list.ctor h0 s).2 = true ∧
        (list.ctor h0 s).1.next (list.ctor h0 s).2.fake = (list.ctor h0 s).2.fake ∧
        (list.ctor h0 s).1.prev (list.ctor h0 s).2.fake = (list.ctor h0 s).2.fake ∧
        list.WF (list.ctor h0 s).1 (list.ctor h0 s).2 []) ∧
      (∀ (v : T) (n : Ptr), h'.alloc n = false → ∀ fuel, 1 ≤ fuel →
        list.traverse (list.push_back h' self v n) self fuel = some [v]) := by
  have hb := begin_of_WF h self nvs hW
  obtain ⟨-, h', e1, e2, e4, -⟩ := erase_range_loop h self (list.begin h self)
    (list.end_ self) [] nvs [] (by simpa using hW) (by simpa using hb) rfl
  have e3 : list.WF h' self [] := by simpa using e2
  refine ⟨h', ?_, (empty_of_WF h' self [] e3).mpr rfl, e3.2.1.2.1, e3.2.1.2.2, e3, e4, ?_, ?_⟩
  · intro fuel hf
    simp [list.clear, e1 fuel hf]
  · intro h0 s
    have w := ctor_WF h0 s
    exact ⟨(empty_of_WF _ _ [] w).mpr rfl, w.2.1.2.1, w.2.1.2.2, w⟩
  · intro v n hn fuel hf
    have w := (insert_spec h' self (list.end_ self) v n [] [] e3 rfl hn).1
    have := traverse_of_WF _ self _ w fuel (by simpa using hf)
    simpa [list.push_back] using this

/-- Witness for claim C8: clearing `A = [1,2,3,4]` with fuel 4 gives an empty
list, and pushing 9 afterwards gives `[9]`. -/
theorem clear_resets_witness :
    list.WF heapAB ⟨0⟩ [(1, 1), (2, 2), (3, 3), (4, 4)] ∧
    (list.clear heapAB ⟨0⟩ 4).map (fun h1 => list.empty h1 ⟨0⟩) = some true ∧
    (list.clear heapAB ⟨0⟩ 4).bind
      (fun h1 => list.traverse (list.push_back h1 ⟨0⟩ 9 1) ⟨0⟩ 1) = some [9] :=
    by
  obtain ⟨h1, e1, e2, -, -, -, e6, -, e8⟩ :=
    clear_resets heapAB ⟨0⟩ [(1, 1), (2, 2), (3, 3), (4, 4)] (by decide)
  refine ⟨by decide, ?_, ?_⟩
  · rw [e1 4 (by decide), Option.map_some', e2]
  · rw [e1 4 (by decide), Option.some_bind]
    exact e8 9 1 (e6 1 (by decide)) 1 (le_refl 1)

/-! ## Push and pop -/

/-- In a well-formed non-empty list the node before `end()` holds the final
element. -/
theorem last_value_of_WF (h : Heap T) (self : list) (nvs : List (Ptr × T)) (q : Ptr) (y : T)
    (hW : list.WF h self (nvs ++ [(q, y)])) : ((list.end_ self).dec h).deref h = some y := by
  have hq := prev_end_of_WF h self nvs q y hW
  simp only [basic_iterator.deref, hq]
  exact (hW.2.2.2.2 (q, y) (by simp)).2

theorem front_of_WF (h : Heap T) (self : list) (nvs : List (Ptr × T)) (q : Ptr) (y : T)
    (hW : list.WF h self ((q, y) :: nvs)) : list.front h self = some y := by
  have hq := begin_of_WF h self _ hW
  simp only [List.map_cons, List.cons_append, List.head?_cons, Option.some.injEq] at hq
  simp only [list.front, basic_iterator.deref, ← hq]
  exact (hW.2.2.2.2 (q, y) (by simp)).2

/-- Every call of `std::prev` is undefined: the call of `operator--()` inside
it returns no reference. -/
theorem std_prev_undefined (h : Heap T) (it : basic_iterator) : std_prev h it = none := rfl

/-- Effect of the two pushes on the heap: for a well-formed list with nodes
`nvs` and a newly allocated node `n`, after `push_back(v)` the list is well
formed with nodes `nvs ++ [(n, v)]`, its reading is the old elements followed
by `v`, and the node before `end()` holds `v`; after `push_front(v)` the list
is well formed with nodes `(n, v) :: nvs`, its reading is `v` followed by the
old elements, and `front()` returns `v`. -/
theorem push_spec (h : Heap T) (self : list) (nvs : List (Ptr × T)) (v : T) (n : Ptr)
    (hW : list.WF h self nvs) (hfresh : h.alloc n = false) :
    (list.WF (list.push_back h self v n) self (nvs ++ [(n, v)]) ∧
      (∀ fuel, nvs.length + 1 ≤ fuel →
        list.traverse (list.push_back h self v n) self fuel = some (nvs.map Prod.snd ++ [v])) ∧
      ((list.end_ self).dec (list.push_back h self v n)).deref (list.push_back h self v n)
        = some v) ∧
    (list.WF (list.push_front h self v n) self ((n, v) :: nvs) ∧
      (∀ fuel, nvs.length + 1 ≤ fuel →
        list.traverse (list.push_front h self v n) self fuel = some (v :: nvs.map Prod.snd)) ∧
      list.front (list.push_front h self v n) self = some v) := by
  constructor
  · obtain ⟨w, -⟩ := insert_spec h self (list.end_ self) v n nvs []
      (by simpa using hW) rfl hfresh
    have w' : list.WF (list.push_back h self v n) self (nvs ++ [(n, v)]) := by
      simpa [list.push_back] using w
    refine ⟨w', ?_, last_value_of_WF _ self nvs n v w'⟩
    intro fuel hf
    have := traverse_of_WF _ self _ w' fuel (by simpa using hf)
    simpa using this
  · obtain ⟨w, -⟩ := insert_spec h self (list.begin h self) v n [] nvs
      (by simpa using hW) (begin_of_WF h self nvs hW) hfresh
    have w' : list.WF (list.push_front h self v n) self ((n, v) :: nvs) := by
      simpa [list.push_front] using w
    refine ⟨w', ?_, front_of_WF _ self nvs n v w'⟩
    intro fuel hf
    have := traverse_of_WF _ self _ w' fuel (by simpa using hf)
    simpa using this

set_option maxRecDepth 100000 in
/-- Claim C9, evaluated on the code: on the well-formed list `A = [1,2,3,4]`
(sentinel 0, nodes 1..4), `push_back(9)` at the new node 9 gives the reading
`[1,2,3,4,9]` and leaves the node before `end()` holding 9, and
`push_front(9)` gives `[9,1,2,3,4]` with `front()` returning 9; but `back()`
after the `push_back` returns nothing: it calls `std::prev(end())`, which
executes `operator--()`, and that operator has no `return` statement. -/
theorem back_after_push_undefined :
    list.WF heapAB ⟨0⟩ [(1, 1), (2, 2), (3, 3), (4, 4)] ∧ heapAB.alloc 9 = false ∧
    list.traverse (list.push_back heapAB ⟨0⟩ 9 9) ⟨0⟩ 5 = some [1, 2, 3, 4, 9] ∧
    ((list.end_ ⟨0⟩).dec (list.push_back heapAB ⟨0⟩ 9 9)).deref (list.push_back heapAB ⟨0⟩ 9 9)
      = some 9 ∧
    list.traverse (list.push_front heapAB ⟨0⟩ 9 9) ⟨0⟩ 5 = some [9, 1, 2, 3, 4] ∧
    list.front (list.push_front heapAB ⟨0⟩ 9 9) ⟨0⟩ = some 9 ∧
    ((list.end_ ⟨0⟩).pre_dec (list.push_back heapAB ⟨0⟩ 9 9)).2 = none ∧
    std_prev (list.push_back heapAB ⟨0⟩ 9 9) (list.end_ ⟨0⟩) = none ∧
    list.back (list.push_back heapAB ⟨0⟩ 9 9) ⟨0⟩ = none := by
  decide

/-- Effect on the heap of erasing the first node (`pop_front()`) and of
erasing the node before `end()` (the node that `pop_back()` is meant to
erase): for a well-formed non-empty list with nodes `nvs`, the first leaves
the list well formed with the nodes of `nvs` without the first one, the second
with the nodes of `nvs` without the final one; in both cases `empty()` holds
afterwards exactly when no node remains. -/
theorem pop_spec (h : Heap T) (self : list) (nvs : List (Ptr × T))
    (hW : list.WF h self nvs) (hne : nvs ≠ []) :
    (list.WF (list.pop_front h self) self nvs.tail ∧
      (∀ fuel, nvs.tail.length ≤ fuel →
        list.traverse (list.pop_front h self) self fuel = some (nvs.map Prod.snd).tail) ∧
      (list.empty (list.pop_front h self) self = true ↔ nvs.tail = [])) ∧
    (list.WF (list.erase h self ((list.end_ self).dec h)).1 self nvs.dropLast ∧
      (∀ fuel, nvs.dropLast.length ≤ fuel →
        list.traverse (list.erase h self ((list.end_ self).dec h)).1 self fuel
          = some (nvs.map Prod.snd).dropLast) ∧
      (list.empty (list.erase h self ((list.end_ self).dec h)).1 self = true ↔
        nvs.dropLast = [])) := by
  constructor
  · cases nvs with
    | nil => exact absurd rfl hne
    | cons px xs =>
      obtain ⟨p, x⟩ := px
      have hb := begin_of_WF h self _ hW
      simp only [List.map_cons, List.cons_append, List.head?_cons, Option.some.injEq] at hb
      have hW2 : list.WF h self ([] ++ [((list.begin h self).p, x)] ++ xs) := by
        rw [← hb]
        simpa using hW
      obtain ⟨w, -⟩ := erase_spec h self (list.begin h self) [] xs x hW2
      have w' : list.WF (list.pop_front h self) self xs := by simpa [list.pop_front] using w
      refine ⟨w', ?_, empty_of_WF _ self xs w'⟩
      intro fuel hf
      simpa using traverse_of_WF _ self xs w' fuel hf
  · obtain ⟨ys, qy, rfl⟩ : ∃ ys qy, nvs = ys ++ [qy] :=
      ⟨nvs.dropLast, nvs.getLast hne, (List.dropLast_append_getLast hne).symm⟩
    obtain ⟨q, y⟩ := qy
    have hq := prev_end_of_WF h self ys q y hW
    have hW2 : list.WF h self (ys ++ [(((list.end_ self).dec h).p, y)] ++ []) := by
      rw [hq]
      simpa using hW
    obtain ⟨w, -⟩ := erase_spec h self ((list.end_ self).dec h) ys [] y hW2
    have w' : list.WF (list.erase h self ((list.end_ self).dec h)).1 self ys := by
      simpa using w
    simp only [List.dropLast_concat, List.map_append, List.map_cons, List.map_nil]
    refine ⟨w', ?_, empty_of_WF _ self ys w'⟩
    intro fuel hf
    simpa using traverse_of_WF _ self ys w' fuel hf

set_option maxRecDepth 100000 in
/-- Claim C10, evaluated on the code: on the well-formed non-empty list
`A = [1,2,3,4]` (sentinel 0, nodes 1..4), `pop_front()` leaves the reading
`[2,3,4]` and a non-empty list, and erasing the node before `end()` would
leave `[1,2,3]`; but `pop_back()` has no result: it calls `std::prev(end())`,
which executes `operator--()`, and that operator has no `return` statement. -/
theorem pop_back_undefined :
    list.WF heapAB ⟨0⟩ [(1, 1), (2, 2), (3, 3), (4, 4)] ∧
    list.empty heapAB ⟨0⟩ = false ∧
    list.traverse (list.pop_front heapAB ⟨0⟩) ⟨0⟩ 3 = some [2, 3, 4] ∧
    list.empty (list.pop_front heapAB ⟨0⟩) ⟨0⟩ = false ∧
    list.traverse (list.erase heapAB ⟨0⟩ ((list.end_ ⟨0⟩).dec heapAB)).1 ⟨0⟩ 3
      = some [1, 2, 3] ∧
    ((list.end_ ⟨0⟩).pre_dec heapAB).2 = none ∧
    std_prev heapAB (list.end_ ⟨0⟩) = none ∧
    (list.pop_back heapAB ⟨0⟩).isSome = false := by
  decide

/-! ## Links of the nodes of a cycle -/

/-- In a closed cycle every node has its successor and its predecessor in
the cycle, and the two links are inverse to each other. -/
theorem cyc_links (h : Heap T) (c : List Ptr) (a : Ptr) (hc : Cyc h c) (ha : a ∈ c) :
    h.next a ∈ c ∧ h.prev a ∈ c ∧ h.prev (h.next a) = a ∧ h.next (h.prev a) = a := by
  obtain ⟨X, Y, rfl⟩ := List.append_of_mem ha
  have hr : Cyc h (a :: (Y ++ X)) := by
    have := (cyc_rotate h X (a :: Y)).mp hc
    simpa using this
  have hsub : ∀ x, x ∈ a :: (Y ++ X) → x ∈ X ++ a :: Y := by
    intro x hx
    simp only [List.mem_cons, List.mem_append] at hx ⊢
    tauto
  obtain ⟨hp, hl⟩ := hr
  have hlm := hsub _ (lastOf_mem (Y ++ X) a)
  cases hZ : Y ++ X with
  | nil =>
    rw [hZ] at hl
    simp only [lastOf] at hl
    refine ⟨?_, ?_, ?_, ?_⟩
    · rw [hl.1]; exact ha
    · rw [hl.2]; exact ha
    · rw [hl.1]; exact hl.2
    · rw [hl.2]; exact hl.1
  | cons z Z =>
    rw [hZ] at hp hl hlm
    obtain ⟨haz, -⟩ := hp
    refine ⟨?_, ?_, ?_, ?_⟩
    · rw [haz.1]
      exact hsub z (by rw [hZ]; simp)
    · rw [hl.2]; exact hlm
    · rw [haz.1]; exact haz.2
    · rw [hl.2]; exact hl.1

/-- The links of every node of a well-formed list stay inside the list and
are inverse to each other. -/
theorem links_of_WF (h : Heap T) (self : list) (nvs : List (Ptr × T))
    (hW : list.WF h self nvs) (a : Ptr) (ha : a ∈ self.fake :: nvs.map Prod.fst) :
    h.next a ∈ self.fake :: nvs.map Prod.fst ∧ h.prev a ∈ self.fake :: nvs.map Prod.fst ∧
    h.prev (h.next a) = a ∧ h.next (h.prev a) = a :=
  cyc_links h _ a hW.2.1 ha

theorem alloc_of_WF (h : Heap T) (self : list) (nvs : List (Ptr × T))
    (hW : list.WF h self nvs) (a : Ptr) (ha : a ∈ self.fake :: nvs.map Prod.fst) :
    h.alloc a = true := by
  simp only [List.mem_cons, List.mem_map] at ha
  rcases ha with rfl | ⟨nv, hnv, rfl⟩
  · exact hW.2.2.1
  · exact (hW.2.2.2.2 nv hnv).1

/-- Frame rule for well-formedness: a list stays well formed, with the same
nodes and elements, under a heap change that keeps the four fields of each of
its nodes. -/
theorem WF_frame (h h' : Heap T) (self : list) (nvs : List (Ptr × T))
    (hW : list.WF h self nvs)
    (hsame : ∀ a ∈ self.fake :: nvs.map Prod.fst,
      h'.next a = h.next a ∧ h'.prev a = h.prev a ∧ h'.value a = h.value a ∧
      h'.alloc a = h.alloc a) :
    list.WF h' self nvs := by
  obtain ⟨nW, cW, aW, vW, eW⟩ := hW
  have hf := hsame self.fake (List.mem_cons_self _ _)
  refine ⟨nW, ⟨?_, ?_, ?_⟩, ?_, ?_, ?_⟩
  · exact path_frame h h' _ _ nW cW.1 (fun x hx _ => (hsame x hx).1)
      (fun y hy => (hsame y (List.mem_cons_of_mem _ hy)).2.1)
  · rw [(hsame _ (lastOf_mem _ _)).1]
    exact cW.2.1
  · rw [hf.2.1]
    exact cW.2.2
  · rw [hf.2.2.2]; exact aW
  · rw [hf.2.2.1]; exact vW
  · intro nv hnv
    have := hsame nv.1 (List.mem_cons_of_mem _ (List.mem_map_of_mem _ hnv))
    rw [this.2.2.2, this.2.2.1]
    exact eW nv hnv

/-! ## Reverse traversal of a well-formed list -/

theorem rwalk_path (h : Heap T) (self : list) (nvs : List (Ptr × T)) (b : Ptr)
    (hp : Path h self.fake (nvs.map Prod.fst ++ [b]))
    (hn : (nvs.map Prod.fst ++ [b]).Nodup)
    (hval : ∀ nv ∈ nvs, h.value nv.1 = some nv.2)
    (fuel : Nat) (hf : nvs.length ≤ fuel) :
    list.rwalk h self fuel ⟨⟨b⟩⟩ = some (nvs.map Prod.snd).reverse := by
  induction nvs using List.reverseRecOn generalizing b fuel with
  | nil =>
    simp only [List.map_nil, List.nil_append, Path, Linked] at hp
    unfold list.rwalk
    simp [list.rend, list.begin, hp.1.1]
  | append_singleton pre qy ih =>
    obtain ⟨q, y⟩ := qy
    simp only [List.map_append, List.map_cons, List.map_nil, List.append_assoc,
      List.singleton_append] at hp hn
    have hp2 : Path h self.fake (pre.map Prod.fst ++ [q]) ∧ Linked h q b := by
      have := (path_append_cons h (pre.map Prod.fst) [b] self.fake q).mp hp
      refine ⟨(path_append_cons h (pre.map Prod.fst) [] self.fake q).mpr
        ⟨this.1, this.2.1, trivial⟩, this.2.2.1⟩
    have hbne : b ≠ h.next self.fake := by
      have hmem : h.next self.fake ∈ pre.map Prod.fst ++ [q] := by
        cases hpre : pre.map Prod.fst with
        | nil =>
          rw [hpre] at hp2
          simp only [List.nil_append, Path, Linked] at hp2
          simp [hp2.1.1.1]
        | cons z Z =>
          rw [hpre] at hp2
          simp only [List.cons_append, Path, Linked] at hp2
          simp [hp2.1.1.1]
      intro e
      rw [← e] at hmem
      have hc : (pre.map Prod.fst ++ q :: [b]).count b = 1 :=
        List.count_eq_one_of_mem hn (by simp)
      have h2 : 1 ≤ (pre.map Prod.fst ++ [q]).count b := List.count_pos_iff.mpr hmem
      simp only [List.count_append, List.count_cons, List.count_nil, beq_self_eq_true,
        if_true] at hc h2
      omega
    cases fuel with
    | zero => simp at hf
    | succ fuel =>
      have hv : h.value q = some y := hval (q, y) (by simp)
      have hn2 : (pre.map Prod.fst ++ [q]).Nodup := by
        have : (pre.map Prod.fst ++ [q]).Sublist (pre.map Prod.fst ++ q :: [b]) := by
          refine List.Sublist.append (List.Sublist.refl _) ?_
          exact List.Sublist.cons₂ q (List.nil_sublist _)
        exact hn.sublist this
      have := ih q hp2.1 hn2 (fun nv hnv => hval nv (by simp [hnv])) fuel
        (by simp at hf; omega)
      unfold list.rwalk
      have hne : ¬ (⟨⟨b⟩⟩ : reverse_iterator) = list.rend h self := by
        intro e
        simp only [list.rend, list.begin, reverse_iterator.mk.injEq,
          basic_iterator.mk.injEq] at e
        exact hbne e
      simp [hne, basic_iterator.dec, basic_iterator.deref, hp2.2.2, hv, this]

/-- Reverse traversal of a well-formed list returns its elements in reverse
order, for every amount of fuel that is at least the number of elements. -/
theorem rtraverse_of_WF (h : Heap T) (self : list) (nvs : List (Ptr × T))
    (hw : list.WF h self nvs) (fuel : Nat) (hf : nvs.length ≤ fuel) :
    list.rtraverse h self fuel = some (nvs.map Prod.snd).reverse := by
  obtain ⟨hn, hc, -, -, hv⟩ := hw
  refine rwalk_path h self nvs self.fake ?_ ?_ (fun nv hnv => (hv nv hnv).2) fuel hf
  · exact (path_append_cons h _ [] self.fake self.fake).mpr ⟨hc.1, hc.2, trivial⟩
  · refine (List.Perm.nodup_iff ?_).mp hn
    rw [List.perm_iff_count]
    intro a
    simp only [List.count_append, List.count_cons, List.count_nil]
    omega

/-! ## Effect of single operations outside the list -/

theorem pos_mem_of_head (A B : List (Ptr × T)) (s p : Ptr)
    (hpos : (B.map Prod.fst ++ [s]).head? = some p) : p ∈ s :: (A ++ B).map Prod.fst := by
  cases B with
  | nil =>
    simp only [List.map_nil, List.nil_append, List.head?_cons, Option.some.injEq] at hpos
    simp [hpos]
  | cons b B =>
    simp only [List.map_cons, List.cons_append, List.head?_cons, Option.some.injEq] at hpos
    simp [hpos]

/-- Effect of `insert` on the list and on the remaining heap. -/
theorem insert_step (h : Heap T) (self : list) (pos : basic_iterator) (v : T) (n : Ptr)
    (A B : List (Ptr × T)) (hW : list.WF h self (A ++ B))
    (hpos : (B.map Prod.fst ++ [self.fake]).head? = some pos.p)
    (hfresh : h.alloc n = false) :
    list.WF (list.insert h self pos v n).1 self (A ++ [(n, v)] ++ B) ∧
    FrameOutside h (list.insert h self pos v n).1 self (A ++ B) := by
  refine ⟨(insert_spec h self pos v n A B hW hpos hfresh).1, ?_⟩
  intro a ha hna
  have hp := pos_mem_of_head A B self.fake pos.p hpos
  have hq := (links_of_WF h self _ hW pos.p hp).2.1
  have han : a ≠ n := by
    intro e
    rw [e, hfresh] at ha
    exact Bool.false_ne_true ha
  have hap : a ≠ pos.p := fun e => hna (e ▸ hp)
  have haq : a ≠ h.prev pos.p := fun e => hna (e ▸ hq)
  have hnp : n ≠ pos.p := by
    intro e
    have := alloc_of_WF h self _ hW pos.p hp
    rw [← e, hfresh] at this
    exact Bool.false_ne_true this
  refine ⟨?_, ?_, ?_, ?_⟩
  · rw [insert_next h self pos v n hnp, if_neg haq, if_neg han]
  · rw [insert_prev, if_neg hap, if_neg han]
  · rw [insert_value, Function.update_apply, if_neg han]
  · rw [insert_alloc, Function.update_apply, if_neg han]

/-- Effect of `erase(pos)` on the list and on the remaining heap. -/
theorem erase_step (h : Heap T) (self : list) (pos : basic_iterator)
    (A B : List (Ptr × T)) (x : T)
    (hW : list.WF h self (A ++ [(pos.p, x)] ++ B)) :
    list.WF (list.erase h self pos).1 self (A ++ B) ∧
    FrameOutside h (list.erase h self pos).1 self (A ++ [(pos.p, x)] ++ B) := by
  refine ⟨(erase_spec h self pos A B x hW).1, ?_⟩
  intro a _ hna
  have hp : pos.p ∈ self.fake :: (A ++ [(pos.p, x)] ++ B).map Prod.fst := by simp
  obtain ⟨h1, h2, -, -⟩ := links_of_WF h self _ hW pos.p hp
  have hap : a ≠ pos.p := fun e => hna (e ▸ hp)
  have haq : a ≠ h.prev pos.p := fun e => hna (e ▸ h2)
  have har : a ≠ h.next pos.p := fun e => hna (e ▸ h1)
  refine ⟨?_, ?_, ?_, ?_⟩
  · rw [erase_next, if_neg haq]
  · rw [erase_prev, if_neg har]
  · rw [erase_value, Function.update_apply, if_neg hap]
  · rw [erase_alloc, Function.update_apply, if_neg hap]

/-- Effect of the loop of `erase(first, last)` on the remaining heap. -/
theorem erase_range_frame (h : Heap T) (self : list) (first last : basic_iterator)
    (A M B : List (Ptr × T))
    (hW : list.WF h self (A ++ M ++ B))
    (hfirst : ((M ++ B).map Prod.fst ++ [self.fake]).head? = some first.p)
    (hlast : (B.map Prod.fst ++ [self.fake]).head? = some last.p)
    (fuel : Nat) (h' : Heap T) (it : basic_iterator)
    (hrun : list.erase_range h self fuel first last = some (h', it)) :
    FrameOutside h h' self (A ++ M ++ B) := by
  induction M generalizing h first fuel with
  | nil =>
    have he : first = last := by
      obtain ⟨f⟩ := first
      obtain ⟨l⟩ := last
      simp only [List.nil_append] at hfirst
      rw [hfirst] at hlast
      simpa using hlast
    rw [erase_range_done h self fuel first last he] at hrun
    simp only [Option.some.injEq, Prod.mk.injEq] at hrun
    intro a _ _
    rw [← hrun.1]
    exact ⟨rfl, rfl, rfl, rfl⟩
  | cons mx M ih =>
    obtain ⟨m, x⟩ := mx
    have hne : first ≠ last := by
      intro e
      have h0 := (erase_range_loop h self first last A ((m, x) :: M) B hW hfirst hlast).1 0
        (by simp)
      rw [erase_range_done h self 0 first last e] at h0
      simp at h0
    obtain ⟨f⟩ := first
    simp only [List.cons_append, List.map_cons, List.head?_cons, Option.some.injEq] at hfirst
    subst hfirst
    cases fuel with
    | zero =>
      rw [erase_range_zero h self ⟨m⟩ last hne] at hrun
      simp at hrun
    | succ fuel =>
      rw [erase_range_succ h self fuel ⟨m⟩ last hne] at hrun
      have hW2 : list.WF h self (A ++ [(m, x)] ++ (M ++ B)) := by simpa using hW
      obtain ⟨w1, f1⟩ := erase_step h self ⟨m⟩ A (M ++ B) x hW2
      obtain ⟨-, hret, -, -⟩ := erase_spec h self ⟨m⟩ A (M ++ B) x hW2
      have f2 := ih (list.erase h self ⟨m⟩).1 (list.erase h self ⟨m⟩).2 (by simpa using w1)
        hret fuel hrun
      intro a ha hna
      have hna1 : a ∉ self.fake :: (A ++ [(m, x)] ++ (M ++ B)).map Prod.fst := by
        simpa using hna
      obtain ⟨k1, k2, k3, k4⟩ := f1 a ha hna1
      have hna2 : a ∉ self.fake :: (A ++ M ++ B).map Prod.fst := by
        intro hm
        apply hna
        simp only [List.map_append, List.map_cons, List.mem_cons, List.mem_append] at hm ⊢
        tauto
      obtain ⟨j1, j2, j3, j4⟩ := f2 a (by rw [k4]; exact ha) hna2
      exact ⟨j1.trans k1, j2.trans k2, j3.trans k3, j4.trans k4⟩

/-! ## Positions and ranges of a well-formed list -/

theorem validpos_mem (h : Heap T) (self : list) (nvs : List (Ptr × T))
    (hW : list.WF h self nvs) (pos : basic_iterator) (hv : ValidPos h self pos) :
    pos.p ∈ self.fake :: nvs.map Prod.fst := by
  obtain ⟨k, hk⟩ := hv
  rw [← hk]
  clear hk
  induction k with
  | zero => simp
  | succ k ih =>
    rw [Function.iterate_succ_apply']
    exact (links_of_WF h self nvs hW _ ih).1

theorem split_at (nvs : List (Ptr × T)) (s p : Ptr) (hp : p ∈ s :: nvs.map Prod.fst) :
    ∃ A B, nvs = A ++ B ∧ (B.map Prod.fst ++ [s]).head? = some p := by
  by_cases hm : p ∈ nvs.map Prod.fst
  · obtain ⟨nv, hnv, rfl⟩ := List.mem_map.mp hm
    obtain ⟨A, B, rfl⟩ := List.append_of_mem hnv
    exact ⟨A, nv :: B, rfl, by simp⟩
  · have : p = s := by
      simp only [List.mem_cons] at hp
      tauto
    exact ⟨nvs, [], by simp, by simp [this]⟩

theorem split_at_node (nvs : List (Ptr × T)) (p : Ptr) (hp : p ∈ nvs.map Prod.fst) :
    ∃ A x B, nvs = A ++ [(p, x)] ++ B := by
  obtain ⟨nv, hnv, rfl⟩ := List.mem_map.mp hp
  obtain ⟨A, B, rfl⟩ := List.append_of_mem hnv
  exact ⟨A, nv.2, B, by simp⟩

theorem next_of_split (h : Heap T) (self : list) (A R : List (Ptr × T)) (p : Ptr) (x : T)
    (hW : list.WF h self (A ++ (p, x) :: R)) :
    (R.map Prod.fst ++ [self.fake]).head? = some (h.next p) := by
  have hW2 : list.WF h self (A ++ [(p, x)] ++ R) := by simpa using hW
  have := (erase_spec h self ⟨p⟩ A R x hW2).2.1
  rw [this, erase_result]

theorem range_split (h : Heap T) (self : list) (k : Nat) (A R : List (Ptr × T)) (p q : Ptr)
    (hW : list.WF h self (A ++ R))
    (hp : (R.map Prod.fst ++ [self.fake]).head? = some p)
    (hk : (h.next)^[k] p = q) (hj : ∀ j, j < k → (h.next)^[j] p ≠ self.fake) :
    ∃ M B, R = M ++ B ∧ (B.map Prod.fst ++ [self.fake]).head? = some q := by
  induction k generalizing A R p with
  | zero =>
    simp only [Function.iterate_zero, id_eq] at hk
    exact ⟨[], R, rfl, by rw [← hk]; exact hp⟩
  | succ k ih =>
    have hp0 : p ≠ self.fake := hj 0 (Nat.succ_pos k)
    cases R with
    | nil =>
      simp only [List.map_nil, List.nil_append, List.head?_cons, Option.some.injEq] at hp
      exact absurd hp.symm hp0
    | cons px R =>
      obtain ⟨p', x⟩ := px
      simp only [List.map_cons, List.cons_append, List.head?_cons, Option.some.injEq] at hp
      subst hp
      have hnx := next_of_split h self A R p' x hW
      rw [Function.iterate_succ_apply] at hk
      obtain ⟨M, B, hR, hB⟩ := ih (A ++ [(p', x)]) R (h.next p') (by simpa using hW) hnx hk
        (fun j hjk => by
          have := hj (j + 1) (Nat.succ_lt_succ hjk)
          rwa [Function.iterate_succ_apply] at this)
      exact ⟨(p', x) :: M, B, by rw [hR]; simp, hB⟩

/-! ## Every legal operation preserves well-formedness -/

theorem frame_of_range (h : Heap T) (self : list) (first last : basic_iterator)
    (A M B : List (Ptr × T))
    (hW : list.WF h self (A ++ M ++ B))
    (hfirst : ((M ++ B).map Prod.fst ++ [self.fake]).head? = some first.p)
    (hlast : (B.map Prod.fst ++ [self.fake]).head? = some last.p)
    (fuel : Nat) (h' : Heap T) (it : basic_iterator)
    (hrun : list.erase_range h self fuel first last = some (h', it)) :
    list.WF h' self (A ++ B) ∧ FrameOutside h h' self (A ++ M ++ B) := by
  refine ⟨?_, erase_range_frame h self first last A M B hW hfirst hlast fuel h' it hrun⟩
  obtain ⟨e1, h2, e2, e3, -⟩ := erase_range_loop h self first last A M B hW hfirst hlast
  by_cases hf : fuel < M.length
  · rw [e1 fuel hf] at hrun
    simp at hrun
  · rw [e2 fuel (Nat.le_of_not_lt hf)] at hrun
    simp only [Option.some.injEq, Prod.mk.injEq] at hrun
    rw [← hrun.1]
    exact e3

/-- Every legal operation on a well-formed list leaves it well formed, leaves
every allocated cell outside the list untouched, and uses as new nodes only
cells that were not allocated before. -/
theorem step_WF (h h' : Heap T) (self : list) (nvs : List (Ptr × T))
    (hW : list.WF h self nvs) (hs : Step self h h') :
    ∃ nvs', list.WF h' self nvs' ∧ FrameOutside h h' self nvs ∧
      ∀ a ∈ nvs'.map Prod.fst, a ∈ nvs.map Prod.fst ∨ h.alloc a = false := by
  have ins : ∀ (pos : basic_iterator) (v : T) (n : Ptr),
      pos.p ∈ self.fake :: nvs.map Prod.fst → h.alloc n = false →
      ∃ nvs', list.WF (list.insert h self pos v n).1 self nvs' ∧
        FrameOutside h (list.insert h self pos v n).1 self nvs ∧
        ∀ a ∈ nvs'.map Prod.fst, a ∈ nvs.map Prod.fst ∨ h.alloc a = false := by
    intro pos v n hp hn
    obtain ⟨A, B, rfl, hpos⟩ := split_at nvs self.fake pos.p hp
    obtain ⟨w, f⟩ := insert_step h self pos v n A B hW hpos hn
    refine ⟨_, w, f, ?_⟩
    intro a ha
    simp only [List.map_append, List.map_cons, List.map_nil, List.mem_append, List.mem_cons,
      List.not_mem_nil, or_false] at ha ⊢
    rcases ha with (ha | rfl) | ha
    · exact Or.inl (Or.inl ha)
    · exact Or.inr hn
    · exact Or.inl (Or.inr ha)
  have ers : ∀ (pos : basic_iterator), pos.p ∈ nvs.map Prod.fst →
      ∃ nvs', list.WF (list.erase h self pos).1 self nvs' ∧
        FrameOutside h (list.erase h self pos).1 self nvs ∧
        ∀ a ∈ nvs'.map Prod.fst, a ∈ nvs.map Prod.fst ∨ h.alloc a = false := by
    intro pos hp
    obtain ⟨A, x, B, rfl⟩ := split_at_node nvs pos.p hp
    obtain ⟨w, f⟩ := erase_step h self pos A B x hW
    refine ⟨_, w, f, ?_⟩
    intro a ha
    simp only [List.map_append, List.map_cons, List.map_nil, List.mem_append, List.mem_cons,
      List.not_mem_nil, or_false] at ha ⊢
    rcases ha with ha | ha
    · exact Or.inl (Or.inl (Or.inl ha))
    · exact Or.inl (Or.inr ha)
  have rng : ∀ (first last : basic_iterator) (fuel : Nat) (it : basic_iterator),
      first.p ∈ self.fake :: nvs.map Prod.fst →
      (∃ k : Nat, (h.next)^[k] first.p = last.p ∧
        ∀ j, j < k → (h.next)^[j] first.p ≠ self.fake) →
      list.erase_range h self fuel first last = some (h', it) →
      ∃ nvs', list.WF h' self nvs' ∧ FrameOutside h h' self nvs ∧
        ∀ a ∈ nvs'.map Prod.fst, a ∈ nvs.map Prod.fst ∨ h.alloc a = false := by
    intro first last fuel it hp hk hrun
    obtain ⟨k, hk1, hk2⟩ := hk
    obtain ⟨A, R, rfl, hfirst⟩ := split_at nvs self.fake first.p hp
    obtain ⟨M, B, rfl, hlast⟩ := range_split h self k A R first.p last.p hW hfirst hk1 hk2
    have hW2 : list.WF h self (A ++ M ++ B) := by simpa using hW
    obtain ⟨w, f⟩ := frame_of_range h self first last A M B hW2 hfirst hlast fuel h' it hrun
    refine ⟨_, w, by simpa using f, ?_⟩
    intro a ha
    simp only [List.map_append, List.mem_append] at ha ⊢
    rcases ha with ha | ha
    · exact Or.inl (Or.inl ha)
    · exact Or.inl (Or.inr (Or.inr ha))
  cases hs with
  | insert pos v n hv hn => exact ins pos v n (validpos_mem h self nvs hW pos hv) hn
  | erase pos hv hne =>
    have hp := validpos_mem h self nvs hW pos hv
    have : pos.p ≠ self.fake := by
      intro e
      apply hne
      cases pos
      simp only [list.end_, basic_iterator.mk.injEq]
      exact e
    simp only [List.mem_cons] at hp
    exact ers pos (hp.resolve_left this)
  | erase_range first last fuel _ it hv hrun =>
    exact rng first last fuel it (validpos_mem h self nvs hW first hv.1) hv.2 hrun
  | push_front v n hn =>
    have hb := begin_of_WF h self nvs hW
    exact ins (list.begin h self) v n (pos_mem_of_head [] nvs self.fake _ hb) hn
  | push_back v n hn =>
    exact ins (list.end_ self) v n (List.mem_cons_self _ _) hn
  | pop_front he =>
    have hb := begin_of_WF h self nvs hW
    cases nvs with
    | nil =>
      have := (empty_of_WF h self [] hW).mpr rfl
      rw [he] at this
      exact absurd this Bool.false_ne_true
    | cons px xs =>
      simp only [List.map_cons, List.cons_append, List.head?_cons, Option.some.injEq] at hb
      exact ers (list.begin h self) (by rw [← hb]; simp)
  | pop_back _ _ hp =>
    simp [list.pop_back, std_prev_undefined] at hp
  | clear fuel _ hc =>
    simp only [list.clear, Option.map_eq_some', Prod.exists, exists_and_right,
      exists_eq_right] at hc
    obtain ⟨it, hrun⟩ := hc
    have hb := begin_of_WF h self nvs hW
    obtain ⟨w, f⟩ := frame_of_range h self (list.begin h self) (list.end_ self) [] nvs []
      (by simpa using hW) (by simpa using hb) rfl fuel h' it hrun
    exact ⟨[], by simpa using w, by simpa using f, by simp⟩

/-- Well-formedness is preserved along every sequence of legal operations. -/
theorem steps_WF (h h' : Heap T) (self : list)
    (hs : Relation.ReflTransGen (Step self) h h') :
    (∃ nvs, list.WF h self nvs) → ∃ nvs', list.WF h' self nvs' := by
  induction hs with
  | refl => exact id
  | tail _ hstep ih =>
    intro hw
    obtain ⟨nvs, hW⟩ := ih hw
    obtain ⟨nvs', w, -⟩ := step_WF _ _ self nvs hW hstep
    exact ⟨nvs', w⟩

/-! ## Forward and reverse traversal -/

theorem apply_step (h h' : Heap T) (self : list) (op : PushPop T)
    (ha : list.apply h self op = some h') : Step self h h' := by
  cases op with
  | push_back v n =>
    simp only [list.apply] at ha
    split_ifs at ha with hn
    simp only [Option.some.injEq] at ha
    rw [← ha]
    exact Step.push_back h v n (by simpa using hn)
  | push_front v n =>
    simp only [list.apply] at ha
    split_ifs at ha with hn
    simp only [Option.some.injEq] at ha
    rw [← ha]
    exact Step.push_front h v n (by simpa using hn)
  | pop_back =>
    simp only [list.apply] at ha
    split_ifs at ha with hn
    exact Step.pop_back h h' (by simpa using hn) ha
  | pop_front =>
    simp only [list.apply] at ha
    split_ifs at ha with hn
    simp only [Option.some.injEq] at ha
    rw [← ha]
    exact Step.pop_front h (by simpa using hn)

theorem run_steps (self : list) (ops : List (PushPop T)) (h h' : Heap T)
    (hr : list.run self ops h = some h') : Relation.ReflTransGen (Step self) h h' := by
  induction ops generalizing h with
  | nil =>
    simp only [list.run, Option.some.injEq] at hr
    rw [hr]
  | cons op ops ih =>
    simp only [list.run] at hr
    cases ha : list.apply h self op with
    | none => rw [ha] at hr; simp at hr
    | some h1 =>
      rw [ha] at hr
      exact Relation.ReflTransGen.head (apply_step h h1 self op ha) (ih h1 hr)

/-- The two readings of a list agree after every completed run of end
operations: in every state that `list.run` reaches from a default-constructed
list, the reading along `next` from `begin()` to `end()` and the reading along
`prev` in the order of `rbegin()`..`rend()` both finish for every sufficient
amount of fuel, and the first is the reverse of the second.  A run that
contains `pop_back()` does not complete, because that call is undefined. -/
theorem run_readings_agree (h0 : Heap T) (s : Ptr) (ops : List (PushPop T)) (h : Heap T)
    (hrun : list.run ⟨s⟩ ops (list.ctor h0 s).1 = some h) :
    ∃ fwd rev : List T,
      (∀ fuel, fwd.length ≤ fuel →
        list.traverse h ⟨s⟩ fuel = some fwd ∧ list.rtraverse h ⟨s⟩ fuel = some rev) ∧
      fwd = rev.reverse := by
  obtain ⟨nvs, hW⟩ := steps_WF _ h ⟨s⟩ (run_steps ⟨s⟩ ops _ h hrun) ⟨[], ctor_WF h0 s⟩
  refine ⟨nvs.map Prod.snd, (nvs.map Prod.snd).reverse, ?_, by simp⟩
  intro fuel hf
  exact ⟨traverse_of_WF h ⟨s⟩ nvs hW fuel (by simpa using hf),
    rtraverse_of_WF h ⟨s⟩ nvs hW fuel (by simpa using hf)⟩

set_option maxRecDepth 100000 in
/-- Claim C11, evaluated on the code: starting from a default-constructed
list at address 0, the run `push_back(1); push_front(2);` (nodes 1 and 2)
completes with the reading `[2,1]` along `next` and `[1,2]` along `prev`, but
reading the first element through `rbegin()` returns nothing, because
dereferencing a reverse cursor evaluates `*--tmp` through the reference that
`operator--()` never returns; and the run `push_back(1); pop_back();` does
not complete, because `pop_back()` executes `operator--()` as well. -/
theorem reverse_read_undefined :
    (list.run ⟨0⟩ [PushPop.push_back 1 1, PushPop.push_front 2 2]
      (list.ctor (Heap.empty : Heap Nat) 0).1).bind (fun h => list.traverse h ⟨0⟩ 2)
      = some [2, 1] ∧
    (list.run ⟨0⟩ [PushPop.push_back 1 1, PushPop.push_front 2 2]
      (list.ctor (Heap.empty : Heap Nat) 0).1).bind (fun h => list.rtraverse h ⟨0⟩ 2)
      = some [1, 2] ∧
    (list.run ⟨0⟩ [PushPop.push_back 1 1, PushPop.push_front 2 2]
      (list.ctor (Heap.empty : Heap Nat) 0).1).map
        (fun h => ((list.rbegin ⟨0⟩).current.pre_dec h).2) = some none ∧
    (list.run ⟨0⟩ [PushPop.push_back 1 1, PushPop.push_front 2 2]
      (list.ctor (Heap.empty : Heap Nat) 0).1).map
        (fun h => (list.rbegin ⟨0⟩).deref h) = some none ∧
    (list.run ⟨0⟩ [PushPop.push_back 1 1, PushPop.pop_back]
      (list.ctor (Heap.empty : Heap Nat) 0).1).isSome = false := by
  decide

/-! ## Insert followed by erase -/

/-- Claim C12. Insert followed by erase is a round trip: for a well-formed
list with nodes `A ++ B`, `pos` the first node of `B` or `end()`, and `n` the
address of the newly allocated node, `erase(insert(pos, v))` returns a cursor
equal to `pos`, leaves every address other than `n` with the `next` link,
`prev` link and stored element it had before the insert, leaves the
allocation state of every address as before the insert, and leaves the list
well formed with nodes `A ++ B`, so forward traversal returns the pre-insert
sequence. -/
theorem insert_erase_round_trip (h : Heap T) (self : list) (pos : basic_iterator) (v : T)
    (n : Ptr) (A B : List (Ptr × T))
    (hW : list.WF h self (A ++ B))
    (hpos : (B.map Prod.fst ++ [self.fake]).head? = some pos.p)
    (hfresh : h.alloc n = false) :
    (list.erase (list.insert h self pos v n).1 self (list.insert h self pos v n).2).2 = pos ∧
    (∀ a, a ≠ n →
      (list.erase (list.insert h self pos v n).1 self (list.insert h self pos v n).2).1.next a
        = h.next a ∧
      (list.erase (list.insert h self pos v n).1 self (list.insert h self pos v n).2).1.prev a
        = h.prev a ∧
      (list.erase (list.insert h self pos v n).1 self (list.insert h self pos v n).2).1.value a
        = h.value a) ∧
    (list.erase (list.insert h self pos v n).1 self (list.insert h self pos v n).2).1.alloc
      = h.alloc ∧
    list.WF (list.erase (list.insert h self pos v n).1 self (list.insert h self pos v n).2).1
      self (A ++ B) ∧
    (∀ fuel, (A ++ B).length ≤ fuel →
      list.traverse
        (list.erase (list.insert h self pos v n).1 self (list.insert h self pos v n).2).1
        self fuel = some (A.map Prod.snd ++ B.map Prod.snd)) := by
  obtain ⟨w1, hit, -, hn1, hn2⟩ := insert_spec h self pos v n A B hW hpos hfresh
  have hp := pos_mem_of_head A B self.fake pos.p hpos
  obtain ⟨-, -, -, hlink⟩ := links_of_WF h self _ hW pos.p hp
  have hnp : n ≠ pos.p := by
    intro e
    have := alloc_of_WF h self _ hW pos.p hp
    rw [← e, hfresh] at this
    exact Bool.false_ne_true this
  have hitp : (list.insert h self pos v n).2 = ⟨n⟩ := rfl
  have w2 : list.WF (list.insert h self pos v n).1 self
      (A ++ [((list.insert h self pos v n).2.p, v)] ++ B) := by
    rw [hit]
    exact w1
  obtain ⟨w3, -⟩ := erase_spec (list.insert h self pos v n).1 self (list.insert h self pos v n).2
    A B v w2
  refine ⟨?_, ?_, ?_, w3, ?_⟩
  · rw [erase_result, hitp]
    simp only
    rw [hn1]
  · intro a han
    refine ⟨?_, ?_, ?_⟩
    · rw [erase_next, hitp]
      simp only
      rw [hn2, hn1, insert_next h self pos v n hnp]
      by_cases haq : a = h.prev pos.p
      · rw [if_pos haq, haq, hlink]
      · rw [if_neg haq, if_neg haq, if_neg han]
    · rw [erase_prev, hitp]
      simp only
      rw [hn2, hn1, insert_prev]
      by_cases hap : a = pos.p
      · rw [if_pos hap, hap]
      · rw [if_neg hap, if_neg hap, if_neg han]
    · rw [erase_value, hitp, insert_value]
      simp only
      rw [Function.update_apply, if_neg han, Function.update_apply, if_neg han]
  · funext a
    rw [erase_alloc, hitp, insert_alloc]
    simp only
    rw [Function.update_apply]
    by_cases han : a = n
    · rw [if_pos han, han, hfresh]
    · rw [if_neg han, Function.update_apply, if_neg han]
  · intro fuel hf
    simpa using traverse_of_WF _ self _ w3 fuel hf

/-- Witness for claim C12: inserting 7 at a new node 9 before the node
holding 3 of `A = [1,2,3,4]` and erasing it again returns the cursor to the
node holding 3 and leaves `[1,2,3,4]`. -/
theorem insert_erase_round_trip_witness :
    list.WF heapAB ⟨0⟩ [(1, 1), (2, 2), (3, 3), (4, 4)] ∧ heapAB.alloc 9 = false ∧
    (list.erase (list.insert heapAB ⟨0⟩ ⟨3⟩ 7 9).1 ⟨0⟩ (list.insert heapAB ⟨0⟩ ⟨3⟩ 7 9).2).2
      = ⟨3⟩ ∧
    list.traverse
      (list.erase (list.insert heapAB ⟨0⟩ ⟨3⟩ 7 9).1 ⟨0⟩ (list.insert heapAB ⟨0⟩ ⟨3⟩ 7 9).2).1
      ⟨0⟩ 4 = some [1, 2, 3, 4] :=
  have t := insert_erase_round_trip heapAB ⟨0⟩ ⟨3⟩ 7 9 [(1, 1), (2, 2)] [(3, 3), (4, 4)]
    (by decide) (by decide) (by decide)
  ⟨by decide, by decide, t.1, t.2.2.2.2 4 (by decide)⟩

/-! ## The representation invariant -/

theorem prev_fake_of_WF (h : Heap T) (self : list) (nvs : List (Ptr × T))
    (hW : list.WF h self nvs) : h.prev self.fake = self.fake ↔ nvs = [] := by
  obtain ⟨nW, cW, -⟩ := hW
  have hl : h.prev self.fake = lastOf self.fake (nvs.map Prod.fst) := cW.2.2
  rw [hl]
  constructor
  · intro e
    by_contra hne
    exact lastOf_ne_of_nodup _ _ nW (by simpa using hne) e
  · intro e
    rw [e]
    rfl

theorem reachable_WF (self : list) (h : Heap T) (hr : Reachable self h) :
    ∃ nvs, list.WF h self nvs := by
  obtain ⟨h0, hs⟩ := hr
  exact steps_WF _ h self hs ⟨[], ctor_WF h0 self.fake⟩

/-- The representation invariant holds in every state that the legal calls
produce: in every state reached from `list()` by completed legal calls of
`insert`, `erase(pos)`, `erase(first, last)`, `push_front`, `push_back`,
`pop_front` and `clear`, the sentinel followed by the value nodes is a single
closed cycle without repetition, every node `n` reached from the sentinel
along `next` satisfies `n.next.prev == n` and `n.prev.next == n`, and
`sentinel.next == sentinel` iff `sentinel.prev == sentinel` iff the list has
no value nodes iff `empty()` returns true.  A call of `pop_back` produces no
state, because it is undefined. -/
theorem reachable_invariant (self : list) (h : Heap T) (hr : Reachable self h) :
    ∃ nvs, list.WF h self nvs ∧
      (∀ k : Nat, (h.next)^[k] self.fake ∈ self.fake :: nvs.map Prod.fst ∧
        h.prev (h.next ((h.next)^[k] self.fake)) = (h.next)^[k] self.fake ∧
        h.next (h.prev ((h.next)^[k] self.fake)) = (h.next)^[k] self.fake) ∧
      (∀ a ∈ self.fake :: nvs.map Prod.fst, h.prev (h.next a) = a ∧ h.next (h.prev a) = a) ∧
      (h.next self.fake = self.fake ↔ h.prev self.fake = self.fake) ∧
      (h.next self.fake = self.fake ↔ nvs = []) ∧
      (list.empty h self = true ↔ nvs = []) := by
  obtain ⟨nvs, hW⟩ := reachable_WF self h hr
  have he := empty_of_WF h self nvs hW
  have hn : h.next self.fake = self.fake ↔ nvs = [] := by
    rw [← he]
    simp [list.empty]
  refine ⟨nvs, hW, ?_, ?_, ?_, hn, he⟩
  · intro k
    have hm := validpos_mem h self nvs hW ⟨(h.next)^[k] self.fake⟩ ⟨k, rfl⟩
    exact ⟨hm, (links_of_WF h self nvs hW _ hm).2.2⟩
  · intro a ha
    exact (links_of_WF h self nvs hW a ha).2.2
  · rw [hn, prev_fake_of_WF h self nvs hW]

/-- Claim C20, evaluated on the code: the list `L = [5]` (sentinel 0, value
node 1) is reached from `list()` by `push_back(5)`, it is well formed and not
empty, and `pop_back()` on it produces no state in which the invariant could
hold: the call executes `std::prev(end())` and with it `operator--()`, which
has no `return` statement. -/
theorem pop_back_leaves_no_state :
    Reachable ⟨0⟩ heapL ∧ list.WF heapL ⟨0⟩ [(1, 5)] ∧ list.empty heapL ⟨0⟩ = false ∧
    ((list.end_ ⟨0⟩).pre_dec heapL).2 = none ∧
    (list.pop_back heapL ⟨0⟩).isSome = false :=
  ⟨⟨Heap.empty, Relation.ReflTransGen.single (Step.push_back _ 5 1 (by decide))⟩,
    by decide, by decide, by decide, by decide⟩

/-! ## Copy construction -/

theorem copy_loop_done (self other : list) (ns : List Ptr) (h : Heap T) (it : basic_iterator)
    (he : it = list.end_ other) : list.copy_loop self other ns h it = some h := by
  unfold list.copy_loop
  simp [he]

theorem copy_loop_cons (self other : list) (n : Ptr) (ns : List Ptr) (h : Heap T)
    (it : basic_iterator) (e : T) (hne : it ≠ list.end_ other) (hv : it.deref h = some e) :
    list.copy_loop self other (n :: ns) h it =
      list.copy_loop self other ns (list.push_back h self e n)
        (it.inc (list.push_back h self e n)) := by
  rw [list.copy_loop]
  simp [hne, hv]

/-- A well-formed list `other` is untouched by a legal operation on a
well-formed list `self` that shares no node with it. -/
theorem other_WF_of_frame (h h' : Heap T) (self other : list) (cvs nvs : List (Ptr × T))
    (hO : list.WF h other nvs)
    (hd : ∀ a ∈ self.fake :: cvs.map Prod.fst, a ∉ other.fake :: nvs.map Prod.fst)
    (hf : FrameOutside h h' self cvs) : list.WF h' other nvs := by
  refine WF_frame h h' other nvs hO ?_
  intro a ha
  exact hf a (alloc_of_WF h other nvs hO a ha) (fun hm => hd a hm ha)

/-- The loop of the copy constructor: starting with `cvs` already copied and
`rest` still to be read from `other`, it appends the elements of `rest` to
`self` at the addresses `ns` and leaves `other` as it was. -/
theorem copy_loop_spec (self other : list) (nvs : List (Ptr × T)) (rest : List (Ptr × T)) :
    ∀ (done cvs : List (Ptr × T)) (ns : List Ptr) (hc : Heap T) (it : basic_iterator),
    done ++ rest = nvs → list.WF hc other nvs → list.WF hc self cvs →
    (∀ a ∈ self.fake :: cvs.map Prod.fst, a ∉ other.fake :: nvs.map Prod.fst) →
    (rest.map Prod.fst ++ [other.fake]).head? = some it.p →
    ns.Nodup → (∀ n ∈ ns, hc.alloc n = false) → rest.length ≤ ns.length →
    ∃ h', list.copy_loop self other ns hc it = some h' ∧
      list.WF h' self (cvs ++ ns.zip (rest.map Prod.snd)) ∧ list.WF h' other nvs ∧
      (∀ a ∈ self.fake :: (cvs ++ ns.zip (rest.map Prod.snd)).map Prod.fst,
        a ∉ other.fake :: nvs.map Prod.fst) := by
  induction rest with
  | nil =>
    intro done cvs ns hc it _ hO hS hd hit _ _ _
    have he : it = list.end_ other := by
      cases it
      simpa [list.end_] using hit.symm
    exact ⟨hc, copy_loop_done self other ns hc it he, by simpa using hS, hO, by simpa using hd⟩
  | cons px rest ih =>
    intro done cvs ns hc it hsplit hO hS hd hit hnd hfr hlen
    obtain ⟨p, x⟩ := px
    obtain ⟨it⟩ := it
    simp only [List.map_cons, List.cons_append, List.head?_cons, Option.some.injEq] at hit
    subst hit
    cases ns with
    | nil => simp at hlen
    | cons n ns =>
    have hO2 : list.WF hc other (done ++ (p, x) :: rest) := by rw [hsplit]; exact hO
    have hpm : p ∈ nvs.map Prod.fst := by rw [← hsplit]; simp
    have hpne : (⟨p⟩ : basic_iterator) ≠ list.end_ other := by
      intro e
      simp only [list.end_, basic_iterator.mk.injEq] at e
      exact (List.nodup_cons.mp hO.1).1 (e ▸ hpm)
    have hv : (⟨p⟩ : basic_iterator).deref hc = some x := by
      have := (hO.2.2.2.2 (p, x) (by rw [← hsplit]; simp)).2
      exact this
    have hfn : hc.alloc n = false := hfr n (List.mem_cons_self _ _)
    obtain ⟨w1, f1⟩ := insert_step hc self (list.end_ self) x n cvs [] (by simpa using hS)
      rfl hfn
    have w1' : list.WF (list.push_back hc self x n) self (cvs ++ [(n, x)]) := by
      simpa [list.push_back] using w1
    have f1' : FrameOutside hc (list.push_back hc self x n) self cvs := by
      simpa [list.push_back] using f1
    have hO1 := other_WF_of_frame hc _ self other cvs nvs hO hd f1'
    have hnext : (list.push_back hc self x n).next p = hc.next p := by
      have hpo : p ∈ other.fake :: nvs.map Prod.fst := List.mem_cons_of_mem _ hpm
      exact (f1' p (alloc_of_WF hc other nvs hO p hpo) (fun hm => hd p hm hpo)).1
    have hit1 : (rest.map Prod.fst ++ [other.fake]).head? =
        some ((⟨p⟩ : basic_iterator).inc (list.push_back hc self x n)).p := by
      have := next_of_split hc other done rest p x hO2
      simp only [basic_iterator.inc]
      rw [hnext]
      exact this
    have hnO : n ∉ other.fake :: nvs.map Prod.fst := by
      intro hm
      have := alloc_of_WF hc other nvs hO n hm
      rw [hfn] at this
      exact Bool.false_ne_true this
    have hd1 : ∀ a ∈ self.fake :: (cvs ++ [(n, x)]).map Prod.fst,
        a ∉ other.fake :: nvs.map Prod.fst := by
      intro a ha
      simp only [List.map_append, List.map_cons, List.map_nil, List.mem_cons, List.mem_append,
        List.not_mem_nil, or_false] at ha
      rcases ha with rfl | ha | rfl
      · exact hd _ (List.mem_cons_self _ _)
      · exact hd a (List.mem_cons_of_mem _ ha)
      · exact hnO
    have hnd' := List.nodup_cons.mp hnd
    have hfr1 : ∀ m ∈ ns, (list.push_back hc self x n).alloc m = false := by
      intro m hm
      have hmn : m ≠ n := fun e => hnd'.1 (e ▸ hm)
      show (list.insert hc self (list.end_ self) x n).1.alloc m = false
      rw [insert_alloc, Function.update_apply, if_neg hmn]
      exact hfr m (List.mem_cons_of_mem _ hm)
    obtain ⟨h', e1, e2, e3, e4⟩ := ih (done ++ [(p, x)]) (cvs ++ [(n, x)]) ns
      (list.push_back hc self x n) ((⟨p⟩ : basic_iterator).inc (list.push_back hc self x n))
      (by rw [← hsplit]; simp) hO1 w1' hd1 hit1 hnd'.2 hfr1
      (by simpa using hlen)
    refine ⟨h', ?_, by simpa using e2, e3, by simpa using e4⟩
    rw [copy_loop_cons self other n ns hc ⟨p⟩ x hpne hv]
    exact e1

/-- Well-formedness of `other` and disjointness from `self` are preserved by
every sequence of legal operations on `self`. -/
theorem steps_pair (self other : list) (nvs : List (Ptr × T)) (h h2 : Heap T)
    (hs : Relation.ReflTransGen (Step self) h h2) :
    (∃ cvs, list.WF h self cvs ∧
      ∀ a ∈ self.fake :: cvs.map Prod.fst, a ∉ other.fake :: nvs.map Prod.fst) →
    list.WF h other nvs →
    (∃ cvs, list.WF h2 self cvs ∧
      ∀ a ∈ self.fake :: cvs.map Prod.fst, a ∉ other.fake :: nvs.map Prod.fst) ∧
    list.WF h2 other nvs := by
  induction hs with
  | refl => exact fun a b => ⟨a, b⟩
  | tail _ hstep ih =>
    intro hc hO
    obtain ⟨⟨cvs, hS, hd⟩, hO1⟩ := ih hc hO
    obtain ⟨cvs', w, f, hnew⟩ := step_WF _ _ self cvs hS hstep
    refine ⟨⟨cvs', w, ?_⟩, other_WF_of_frame _ _ self other cvs nvs hO1 hd f⟩
    intro a ha hao
    simp only [List.mem_cons] at ha
    rcases ha with rfl | ha
    · exact hd _ (List.mem_cons_self _ _) hao
    · rcases hnew a ha with hold | hfresh
      · exact hd a (List.mem_cons_of_mem _ hold) hao
      · have := alloc_of_WF _ other nvs hO1 a hao
        rw [hfresh] at this
        exact Bool.false_ne_true this

/-- Effect of the copy constructor with the loop `list.copy_loop`, in which
each step `++it` is taken as the assignment alone. -/
theorem copy_ctor_spec (h : Heap T) (s : Ptr) (other : list) (nvs : List (Ptr × T))
    (ns : List Ptr)
    (hO : list.WF h other nvs) (hs : h.alloc s = false)
    (hnd : ns.Nodup) (hfr : ∀ n ∈ ns, h.alloc n = false ∧ n ≠ s)
    (hlen : nvs.length ≤ ns.length) :
    ∃ h', list.copy_ctor h s other ns = some (h', ⟨s⟩) ∧
      list.WF h' ⟨s⟩ (ns.zip (nvs.map Prod.snd)) ∧ list.WF h' other nvs ∧
      (∀ a ∈ s :: (ns.zip (nvs.map Prod.snd)).map Prod.fst,
        a ∉ other.fake :: nvs.map Prod.fst) := by
  have hsO : s ∉ other.fake :: nvs.map Prod.fst := by
    intro hm
    have := alloc_of_WF h other nvs hO s hm
    rw [hs] at this
    exact Bool.false_ne_true this
  have hO0 : list.WF (list.ctor h s).1 other nvs := by
    refine WF_frame h _ other nvs hO ?_
    intro a ha
    have has : a ≠ s := fun e => hsO (e ▸ ha)
    simp [list.ctor, Function.update_apply, has]
  have hfr0 : ∀ n ∈ ns, (list.ctor h s).1.alloc n = false := by
    intro n hn
    have := hfr n hn
    simp [list.ctor, Function.update_apply, this.2, this.1]
  have hb := begin_of_WF _ other nvs hO0
  obtain ⟨h', e1, e2, e3, e4⟩ := copy_loop_spec (list.ctor h s).2 other nvs nvs [] [] ns
    (list.ctor h s).1 (list.begin (list.ctor h s).1 other) rfl hO0 (ctor_WF h s)
    (by
      intro a ha
      simp only [List.map_nil, List.mem_singleton] at ha
      rw [ha]
      exact hsO)
    hb hnd hfr0 hlen
  refine ⟨h', ?_, by simpa using e2, e3, by simpa using e4⟩
  simp only [list.copy_ctor, e1, Option.map_some']
  rfl

/-- The copy made by the loop `list.copy_loop`, in which each step `++it` is
taken as the assignment alone: when `other` is well formed with nodes `nvs`,
the new list object lives at the unallocated address `s`, and the allocator
returns the distinct, unallocated addresses `ns` (at least as many as there
are elements), the loop finishes; afterwards the copy is well formed with the
elements of `other` in the same order at the new addresses, `other` is well
formed with its nodes `nvs`, no node of the copy was allocated before nor is a
node of `other`, and after every sequence of completed legal operations on the
copy `other` is still well formed with nodes `nvs` and has the same
reading. -/
theorem copy_loop_deep (h : Heap T) (s : Ptr) (other : list) (nvs : List (Ptr × T))
    (ns : List Ptr)
    (hO : list.WF h other nvs) (hs : h.alloc s = false)
    (hnd : ns.Nodup) (hfr : ∀ n ∈ ns, h.alloc n = false ∧ n ≠ s)
    (hlen : nvs.length ≤ ns.length) :
    ∃ h', list.copy_ctor h s other ns = some (h', ⟨s⟩) ∧
      list.WF h' ⟨s⟩ (ns.zip (nvs.map Prod.snd)) ∧
      (∀ fuel, nvs.length ≤ fuel → list.traverse h' ⟨s⟩ fuel = some (nvs.map Prod.snd)) ∧
      list.WF h' other nvs ∧
      (∀ fuel, nvs.length ≤ fuel → list.traverse h' other fuel = some (nvs.map Prod.snd)) ∧
      (∀ a ∈ (ns.zip (nvs.map Prod.snd)).map Prod.fst,
        h.alloc a = false ∧ a ∉ other.fake :: nvs.map Prod.fst) ∧
      (∀ h2, Relation.ReflTransGen (Step ⟨s⟩) h' h2 →
        list.WF h2 other nvs ∧
        ∀ fuel, nvs.length ≤ fuel → list.traverse h2 other fuel = some (nvs.map Prod.snd)) := by
  obtain ⟨h', e1, e2, e3, e4⟩ := copy_ctor_spec h s other nvs ns hO hs hnd hfr hlen
  have hzl : (ns.zip (nvs.map Prod.snd)).length = nvs.length := by
    simp [List.length_zip, hlen]
  have hzs : (ns.zip (nvs.map Prod.snd)).map Prod.snd = nvs.map Prod.snd := by
    rw [List.map_snd_zip]
    simpa using hlen
  refine ⟨h', e1, e2, ?_, e3, fun fuel hf => traverse_of_WF h' other nvs e3 fuel hf, ?_, ?_⟩
  · intro fuel hf
    have := traverse_of_WF h' ⟨s⟩ _ e2 fuel (by rw [hzl]; exact hf)
    rw [hzs] at this
    exact this
  · intro a ha
    refine ⟨?_, e4 a (List.mem_cons_of_mem _ ha)⟩
    have : a ∈ ns := by
      obtain ⟨nv, hnv, rfl⟩ := List.mem_map.mp ha
      obtain ⟨a1, a2⟩ := nv
      exact (List.of_mem_zip hnv).1
    exact (hfr a this).1
  · intro h2 hst
    have := (steps_pair ⟨s⟩ other nvs h' h2 hst ⟨_, e2, e4⟩ e3).2
    exact ⟨this, fun fuel hf => traverse_of_WF h2 other nvs this fuel hf⟩

/-- Copying an empty list as written executes no cursor operator: the copy
constructor finishes and the copy is well formed and empty. -/
theorem copy_ctor_strict_empty (h : Heap T) (s : Ptr) (other : list) (ns : List Ptr)
    (hO : list.WF h other []) (hs : h.alloc s = false) :
    list.copy_ctor_strict h s other ns = some ((list.ctor h s).1, ⟨s⟩) ∧
    list.WF (list.ctor h s).1 ⟨s⟩ [] := by
  have hso : s ≠ other.fake := by
    intro e
    have := hO.2.2.1
    rw [← e, hs] at this
    exact Bool.false_ne_true this
  have hb : list.begin (list.ctor h s).1 other = list.end_ other := by
    have hn : h.next other.fake = other.fake := hO.2.1.2.1
    simp [list.begin, list.end_, list.ctor, Function.update_apply, hso.symm, hn]
  refine ⟨?_, ctor_WF h s⟩
  unfold list.copy_ctor_strict list.copy_loop_strict
  simp [hb]
  rfl

set_option maxRecDepth 100000 in
/-- Claim C13, evaluated on the code: copy-constructing from the well-formed
list `L = [5]` (sentinel 0, value node 1) into a new list at the unallocated
address 9 with the unallocated node address 10 does not finish: after the
first `push_back` the loop executes `++it`, a call of `operator++()`, which
has no `return` statement.  With that step taken as the assignment alone the
loop would give the copy `[5]`; copying the empty list at address 2 executes
no `++` and gives an empty copy. -/
theorem copy_nonempty_undefined :
    list.WF heapL ⟨0⟩ [(1, 5)] ∧ heapL.alloc 9 = false ∧ heapL.alloc 10 = false ∧
    (list.copy_ctor_strict heapL 9 ⟨0⟩ [10]).isSome = false ∧
    ((list.begin (list.ctor heapL 9).1 ⟨0⟩).pre_inc
      (list.push_back (list.ctor heapL 9).1 ⟨9⟩ 5 10)).2 = none ∧
    (list.copy_ctor heapL 9 ⟨0⟩ [10]).bind (fun r => list.traverse r.1 r.2 1) = some [5] ∧
    list.WF heapLE ⟨2⟩ [] ∧
    (list.copy_ctor_strict heapLE 9 ⟨2⟩ []).bind (fun r => list.traverse r.1 r.2 1)
      = some [] := by
  decide

/-! ## Swap of two non-empty lists -/

theorem swap_value (h : Heap T) (a b : list) : (swap h a b).value = h.value := by
  simp [swap, std_swap, Heap.write, Heap.read]

theorem swap_alloc (h : Heap T) (a b : list) : (swap h a b).alloc = h.alloc := by
  simp [swap, std_swap, Heap.write, Heap.read]

/-- The `next` fields after `swap` when no sentinel is its own neighbour or a
neighbour of the other sentinel. -/
theorem swap_next (h : Heap T) (a b : list) (hab : a.fake ≠ b.fake)
    (h1 : a.fake ≠ h.next b.fake) (h2 : b.fake ≠ h.prev b.fake)
    (h3 : b.fake ≠ h.next a.fake) (h4 : b.fake ≠ h.next b.fake) (x : Ptr) :
    (swap h a b).next x =
      if x = h.prev a.fake then b.fake
      else if x = h.prev b.fake then a.fake
      else if x = b.fake then h.next a.fake
      else if x = a.fake then h.next b.fake
      else h.next x := by
  simp only [swap, std_swap, Heap.write, Heap.read, Function.update_apply]
  simp only [hab, h1, h2, h3, h4, if_false, if_true]

/-- The `prev` fields after `swap` when the sentinel of `a` is not the first
node of `b` and `b` is not empty. -/
theorem swap_prev (h : Heap T) (a b : list) (hab : a.fake ≠ b.fake)
    (h1 : a.fake ≠ h.next b.fake) (h2 : b.fake ≠ h.prev b.fake) (x : Ptr) :
    (swap h a b).prev x =
      if x = h.next a.fake then b.fake
      else if x = h.next b.fake then a.fake
      else if x = b.fake then h.prev a.fake
      else if x = a.fake then h.prev b.fake
      else h.prev x := by
  simp only [swap, std_swap, Heap.write, Heap.read, Function.update_apply]
  simp only [hab, h1, h2, if_false, if_true]

/-- One half of `swap`: in a heap `h'` whose links are those of `h` except
that the sentinel `A` now encloses the chain `f :: ns` formerly enclosed by the
sentinel `B`, the nodes `A :: f :: ns` form a closed cycle. -/
theorem swap_half (h h' : Heap T) (A B f : Ptr) (ns : List Ptr)
    (hn : (B :: f :: ns).Nodup)
    (hc : Cyc h (B :: f :: ns))
    (hnA : h'.next A = f) (hpf : h'.prev f = A)
    (hnl : h'.next (lastOf f ns) = A) (hpA : h'.prev A = lastOf f ns)
    (hnext : ∀ x ∈ f :: ns, x ≠ lastOf f ns → h'.next x = h.next x)
    (hprev : ∀ y ∈ ns, h'.prev y = h.prev y) :
    Cyc h' (A :: f :: ns) := by
  obtain ⟨⟨-, hp⟩, -⟩ := hc
  have hnf := (List.nodup_cons.mp hn).2
  exact ⟨⟨⟨hnA, hpf⟩, path_frame h h' f ns hnf hp hnext hprev⟩, ⟨hnl, hpA⟩⟩

/-- For two well-formed, non-empty lists without a common node, `swap(a, b)`
exchanges the contents: afterwards `a` is well formed with the nodes of `b`
and `b` is well formed with the nodes of `a`. -/
theorem swap_nonempty (h : Heap T) (a b : list) (xs ys : List (Ptr × T))
    (hA : list.WF h a xs) (hB : list.WF h b ys)
    (hd : ∀ x ∈ a.fake :: xs.map Prod.fst, x ∉ b.fake :: ys.map Prod.fst)
    (hx : xs ≠ []) (hy : ys ≠ []) :
    list.WF (swap h a b) a ys ∧ list.WF (swap h a b) b xs := by
  obtain ⟨nA, cA, aA, vA, eA⟩ := hA
  obtain ⟨nB, cB, aB, vB, eB⟩ := hB
  cases xs with
  | nil => exact absurd rfl hx
  | cons x0 xs =>
  cases ys with
  | nil => exact absurd rfl hy
  | cons y0 ys =>
  obtain ⟨fa, vx⟩ := x0
  obtain ⟨fb, vy⟩ := y0
  simp only [List.map_cons] at nA cA nB cB hd
  have hfa : h.next a.fake = fa := cA.1.1.1
  have hfb : h.next b.fake = fb := cB.1.1.1
  have hla : h.prev a.fake = lastOf fa (xs.map Prod.fst) := cA.2.2
  have hlb : h.prev b.fake = lastOf fb (ys.map Prod.fst) := cB.2.2
  have mla := lastOf_mem (xs.map Prod.fst) fa
  have mlb := lastOf_mem (ys.map Prod.fst) fb
  have nA' := List.nodup_cons.mp nA
  have nB' := List.nodup_cons.mp nB
  have dAB : ∀ x ∈ a.fake :: fa :: xs.map Prod.fst, ∀ y ∈ b.fake :: fb :: ys.map Prod.fst,
      x ≠ y := fun x hx y hy e => hd x hx (e ▸ hy)
  have mA : a.fake ∈ a.fake :: fa :: xs.map Prod.fst := List.mem_cons_self _ _
  have mB : b.fake ∈ b.fake :: fb :: ys.map Prod.fst := List.mem_cons_self _ _
  have mfa : fa ∈ fa :: xs.map Prod.fst := List.mem_cons_self _ _
  have mfb : fb ∈ fb :: ys.map Prod.fst := List.mem_cons_self _ _
  have hab : a.fake ≠ b.fake := dAB _ mA _ mB
  have e1 : a.fake ≠ h.next b.fake := by
    rw [hfb]; exact dAB _ mA _ (List.mem_cons_of_mem _ mfb)
  have e2 : b.fake ≠ h.prev b.fake := by
    rw [hlb]; exact fun e => nB'.1 (e ▸ mlb)
  have e3 : b.fake ≠ h.next a.fake := by
    rw [hfa]; exact (dAB _ (List.mem_cons_of_mem _ mfa) _ mB).symm
  have e4 : b.fake ≠ h.next b.fake := by
    rw [hfb]; exact fun e => nB'.1 (e ▸ mfb)
  have kn := swap_next h a b hab e1 e2 e3 e4
  have kp := swap_prev h a b hab e1 e2
  rw [hfa, hfb, hla, hlb] at kn kp
  -- distinctness facts used to evaluate the conditionals
  have la_ne_lb : lastOf fa (xs.map Prod.fst) ≠ lastOf fb (ys.map Prod.fst) :=
    dAB _ (List.mem_cons_of_mem _ mla) _ (List.mem_cons_of_mem _ mlb)
  have la_ne_B : lastOf fa (xs.map Prod.fst) ≠ b.fake := dAB _ (List.mem_cons_of_mem _ mla) _ mB
  have la_ne_A : lastOf fa (xs.map Prod.fst) ≠ a.fake := fun e => nA'.1 (e ▸ mla)
  have lb_ne_A : lastOf fb (ys.map Prod.fst) ≠ a.fake :=
    (dAB _ mA _ (List.mem_cons_of_mem _ mlb)).symm
  have lb_ne_B : lastOf fb (ys.map Prod.fst) ≠ b.fake := fun e => nB'.1 (e ▸ mlb)
  have fa_ne_fb : fa ≠ fb :=
    dAB _ (List.mem_cons_of_mem _ mfa) _ (List.mem_cons_of_mem _ mfb)
  have fa_ne_A : fa ≠ a.fake := fun e => nA'.1 (e ▸ mfa)
  have fa_ne_B : fa ≠ b.fake := dAB _ (List.mem_cons_of_mem _ mfa) _ mB
  have fb_ne_A : fb ≠ a.fake := (dAB _ mA _ (List.mem_cons_of_mem _ mfb)).symm
  have fb_ne_B : fb ≠ b.fake := fun e => nB'.1 (e ▸ mfb)
  have cycA : Cyc (swap h a b) (a.fake :: fb :: ys.map Prod.fst) := by
    refine swap_half h _ a.fake b.fake fb _ nB cB ?_ ?_ ?_ ?_ ?_ ?_
    · rw [kn, if_neg la_ne_A.symm, if_neg lb_ne_A.symm, if_neg hab, if_pos rfl]
    · rw [kp, if_neg fa_ne_fb.symm, if_pos rfl]
    · rw [kn, if_neg la_ne_lb.symm, if_pos rfl]
    · rw [kp, if_neg fa_ne_A.symm, if_neg fb_ne_A.symm, if_neg hab, if_pos rfl]
    · intro x hx hne
      have xB : x ∈ b.fake :: fb :: ys.map Prod.fst := List.mem_cons_of_mem _ hx
      have c1 : x ≠ lastOf fa (xs.map Prod.fst) :=
        (dAB _ (List.mem_cons_of_mem _ mla) _ xB).symm
      have c3 : x ≠ b.fake := fun e => nB'.1 (e ▸ hx)
      have c4 : x ≠ a.fake := (dAB _ mA _ xB).symm
      rw [kn, if_neg c1, if_neg hne, if_neg c3, if_neg c4]
    · intro y hy
      have yB : y ∈ b.fake :: fb :: ys.map Prod.fst :=
        List.mem_cons_of_mem _ (List.mem_cons_of_mem _ hy)
      have c1 : y ≠ fa := (dAB _ (List.mem_cons_of_mem _ mfa) _ yB).symm
      have c2 : y ≠ fb := fun e => (List.nodup_cons.mp nB'.2).1 (e ▸ hy)
      have c3 : y ≠ b.fake := fun e => nB'.1 (e ▸ List.mem_cons_of_mem _ hy)
      have c4 : y ≠ a.fake := (dAB _ mA _ yB).symm
      rw [kp, if_neg c1, if_neg c2, if_neg c3, if_neg c4]
  have cycB : Cyc (swap h a b) (b.fake :: fa :: xs.map Prod.fst) := by
    refine swap_half h _ b.fake a.fake fa _ nA cA ?_ ?_ ?_ ?_ ?_ ?_
    · rw [kn, if_neg la_ne_B.symm, if_neg lb_ne_B.symm, if_pos rfl]
    · rw [kp, if_pos rfl]
    · rw [kn, if_pos rfl]
    · rw [kp, if_neg fa_ne_B.symm, if_neg fb_ne_B.symm, if_pos rfl]
    · intro x hx hne
      have xA : x ∈ a.fake :: fa :: xs.map Prod.fst := List.mem_cons_of_mem _ hx
      have c2 : x ≠ lastOf fb (ys.map Prod.fst) := dAB _ xA _ (List.mem_cons_of_mem _ mlb)
      have c3 : x ≠ b.fake := dAB _ xA _ mB
      have c4 : x ≠ a.fake := fun e => nA'.1 (e ▸ hx)
      rw [kn, if_neg hne, if_neg c2, if_neg c3, if_neg c4]
    · intro y hy
      have yA : y ∈ a.fake :: fa :: xs.map Prod.fst :=
        List.mem_cons_of_mem _ (List.mem_cons_of_mem _ hy)
      have c1 : y ≠ fa := fun e => (List.nodup_cons.mp nA'.2).1 (e ▸ hy)
      have c2 : y ≠ fb := dAB _ yA _ (List.mem_cons_of_mem _ mfb)
      have c3 : y ≠ b.fake := dAB _ yA _ mB
      have c4 : y ≠ a.fake := fun e => nA'.1 (e ▸ List.mem_cons_of_mem _ hy)
      rw [kp, if_neg c1, if_neg c2, if_neg c3, if_neg c4]
  have nodA : (a.fake :: fb :: ys.map Prod.fst).Nodup :=
    List.nodup_cons.mpr ⟨fun hm => hd _ mA (List.mem_cons_of_mem _ hm), nB'.2⟩
  have nodB : (b.fake :: fa :: xs.map Prod.fst).Nodup :=
    List.nodup_cons.mpr ⟨fun hm => hd _ (List.mem_cons_of_mem _ hm) mB, nA'.2⟩
  constructor
  · refine ⟨by simpa using nodA, by simpa using cycA, ?_, ?_, ?_⟩
    · rw [swap_alloc]; exact aA
    · rw [swap_value]; exact vA
    · intro nv hnv
      rw [swap_alloc, swap_value]
      exact eB nv hnv
  · refine ⟨by simpa using nodB, by simpa using cycB, ?_, ?_, ?_⟩
    · rw [swap_alloc]; exact aB
    · rw [swap_value]; exact vB
    · intro nv hnv
      rw [swap_alloc, swap_value]
      exact eA nv hnv

/-! ## Allocation failure -/

/-- Claim C16. Allocation failure in `insert` is atomic: when the `new`
expression of `insert(pos, v)`, `push_front(v)` or `push_back(v)` fails,
either in the allocation function or while copying the element into storage
at an unallocated address, the call ends with the error, every allocated cell
keeps its `next` link, `prev` link, stored element and allocation state, the
heap is literally unchanged when the allocation function failed, and a
well-formed list stays well formed with the same nodes and elements. -/
theorem alloc_failure_atomic (h : Heap T) (self : list) (pos : basic_iterator) (v : T)
    (nvs : List (Ptr × T)) (o : NewOutcome)
    (hW : list.WF h self nvs)
    (hfail : o = NewOutcome.bad_alloc ∨ ∃ n, o = NewOutcome.copy_throws n ∧ h.alloc n = false) :
    ((∃ e, (list.insert_try h self pos v o).2 = Except.error e) ∧
      (∃ e, (list.push_front_try h self v o).2 = Except.error e) ∧
      (∃ e, (list.push_back_try h self v o).2 = Except.error e)) ∧
    (o = NewOutcome.bad_alloc →
      (list.insert_try h self pos v o).1 = h ∧ (list.push_front_try h self v o).1 = h ∧
      (list.push_back_try h self v o).1 = h) ∧
    (∀ h', h' = (list.insert_try h self pos v o).1 ∨ h' = (list.push_front_try h self v o).1 ∨
        h' = (list.push_back_try h self v o).1 →
      (∀ a, h.alloc a = true →
        h'.next a = h.next a ∧ h'.prev a = h.prev a ∧ h'.value a = h.value a ∧
        h'.alloc a = h.alloc a) ∧
      list.WF h' self nvs ∧
      ∀ fuel, nvs.length ≤ fuel → list.traverse h' self fuel = some (nvs.map Prod.snd)) := by
  have key : ∀ q : basic_iterator,
      (∃ e, (list.insert_try h self q v o).2 = Except.error e) ∧
      (o = NewOutcome.bad_alloc → (list.insert_try h self q v o).1 = h) ∧
      (∀ a, h.alloc a = true →
        (list.insert_try h self q v o).1.next a = h.next a ∧
        (list.insert_try h self q v o).1.prev a = h.prev a ∧
        (list.insert_try h self q v o).1.value a = h.value a ∧
        (list.insert_try h self q v o).1.alloc a = h.alloc a) := by
    intro q
    rcases hfail with rfl | ⟨n, rfl, hn⟩
    · exact ⟨⟨_, rfl⟩, fun _ => rfl, fun a _ => ⟨rfl, rfl, rfl, rfl⟩⟩
    · refine ⟨⟨_, rfl⟩, fun e => by simp at e, ?_⟩
      intro a ha
      have han : a ≠ n := by
        intro e
        rw [e, hn] at ha
        exact Bool.false_ne_true ha
      simp [list.insert_try, Function.update_apply, han]
  have fin : ∀ h' : Heap T,
      (∀ a, h.alloc a = true →
        h'.next a = h.next a ∧ h'.prev a = h.prev a ∧ h'.value a = h.value a ∧
        h'.alloc a = h.alloc a) →
      list.WF h' self nvs ∧
      ∀ fuel, nvs.length ≤ fuel → list.traverse h' self fuel = some (nvs.map Prod.snd) := by
    intro h' hu
    have w : list.WF h' self nvs :=
      WF_frame h h' self nvs hW (fun a ha => hu a (alloc_of_WF h self nvs hW a ha))
    exact ⟨w, fun fuel hf => traverse_of_WF h' self nvs w fuel hf⟩
  refine ⟨⟨(key pos).1, ?_, ?_⟩, fun e => ⟨(key pos).2.1 e, (key _).2.1 e, (key _).2.1 e⟩, ?_⟩
  · obtain ⟨e, he⟩ := (key (list.begin h self)).1
    exact ⟨e, by simp [list.push_front_try, he, Except.map]⟩
  · obtain ⟨e, he⟩ := (key (list.end_ self)).1
    exact ⟨e, by simp [list.push_back_try, he, Except.map]⟩
  · intro h' hh
    rcases hh with rfl | rfl | rfl
    · exact ⟨(key pos).2.2, fin _ (key pos).2.2⟩
    · exact ⟨(key _).2.2, fin _ (key _).2.2⟩
    · exact ⟨(key _).2.2, fin _ (key _).2.2⟩

/-- Witness for claim C16: on `A = [1,2,3,4]`, an `insert` before the node
holding 3 whose element copy fails in storage at address 9 ends with the
error and leaves `[1,2,3,4]`. -/
theorem alloc_failure_atomic_witness :
    list.WF heapAB ⟨0⟩ [(1, 1), (2, 2), (3, 3), (4, 4)] ∧ heapAB.alloc 9 = false ∧
    (list.insert_try heapAB ⟨0⟩ ⟨3⟩ 7 (NewOutcome.copy_throws 9)).2
      = Except.error AllocError.copy_failed ∧
    list.traverse (list.insert_try heapAB ⟨0⟩ ⟨3⟩ 7 (NewOutcome.copy_throws 9)).1 ⟨0⟩ 4
      = some [1, 2, 3, 4] :=
  have t := alloc_failure_atomic heapAB ⟨0⟩ ⟨3⟩ 7 [(1, 1), (2, 2), (3, 3), (4, 4)]
    (NewOutcome.copy_throws 9) (by decide) (Or.inr ⟨9, rfl, by decide⟩)
  ⟨by decide, by decide, rfl, (t.2.2 _ (Or.inl rfl)).2.2 4 (by decide)⟩

/-! ## Cursor stepping -/

/-- Claim C17, evaluated on the code: on the list `L = [5]` (sentinel 0, value
node 1), pre-increment of the cursor at node 1 moves it to the sentinel and
pre-decrement of the cursor at the sentinel moves it to node 1, but neither
returns anything, because `operator++()` and `operator--()` have no `return`
statement; post-increment and post-decrement make the same moves and return
the cursor to the prior node. -/
theorem pre_step_returns_nothing :
    (basic_iterator.pre_inc heapL ⟨1⟩).1 = ⟨0⟩ ∧ (basic_iterator.pre_inc heapL ⟨1⟩).2 = none ∧
    (basic_iterator.pre_dec heapL ⟨0⟩).1 = ⟨1⟩ ∧ (basic_iterator.pre_dec heapL ⟨0⟩).2 = none ∧
    basic_iterator.post_inc heapL ⟨1⟩ = (⟨0⟩, some ⟨1⟩) ∧
    basic_iterator.post_dec heapL ⟨0⟩ = (⟨1⟩, some ⟨0⟩) := by
  decide

/-! ## Splice with coinciding cursors -/

set_option maxRecDepth 100000 in
/-- Claim C18, evaluated on the code: with the well-formed lists
`A = [1,2,3,4]` (sentinel 0, nodes 1..4) and `B = [10,20,30]` (sentinel 5,
nodes 6..8), `B.splice(B.begin()+1, A, A.begin()+1, A.begin()+1)` with the
empty range at node 2 rewrites four links (`1.next`, `6.next`, `7.prev`,
`2.prev`) and joins the two chains, so that traversal of `A` runs into the
sentinel of `B`; and `A.splice(A.begin()+3, A, A.begin()+1, A.begin()+1)`
inside the one list `A` cuts the nodes holding 2 and 3 out of the chain. -/
theorem splice_empty_range_relinks :
    list.WF heapAB ⟨0⟩ [(1, 1), (2, 2), (3, 3), (4, 4)] ∧
    list.WF heapAB ⟨5⟩ [(6, 10), (7, 20), (8, 30)] ∧
    (heapAB.next 1 = 2 ∧ (list.splice heapAB ⟨5⟩ ⟨7⟩ ⟨0⟩ ⟨2⟩ ⟨2⟩).next 1 = 7) ∧
    (heapAB.next 6 = 7 ∧ (list.splice heapAB ⟨5⟩ ⟨7⟩ ⟨0⟩ ⟨2⟩ ⟨2⟩).next 6 = 2) ∧
    (heapAB.prev 7 = 6 ∧ (list.splice heapAB ⟨5⟩ ⟨7⟩ ⟨0⟩ ⟨2⟩ ⟨2⟩).prev 7 = 1) ∧
    (heapAB.prev 2 = 1 ∧ (list.splice heapAB ⟨5⟩ ⟨7⟩ ⟨0⟩ ⟨2⟩ ⟨2⟩).prev 2 = 6) ∧
    list.traverse (list.splice heapAB ⟨5⟩ ⟨7⟩ ⟨0⟩ ⟨2⟩ ⟨2⟩) ⟨0⟩ 10 = none ∧
    list.traverse (list.splice heapAB ⟨5⟩ ⟨7⟩ ⟨0⟩ ⟨2⟩ ⟨2⟩) ⟨5⟩ 10 = none ∧
    list.traverse (list.splice heapAB ⟨0⟩ ⟨4⟩ ⟨0⟩ ⟨2⟩ ⟨2⟩) ⟨0⟩ 10 = some [1, 4] := by
  decide

set_option maxRecDepth 100000 in
/-- Claim C19, evaluated on the code: on the well-formed list
`A = [1,2,3,4]` (sentinel 0, nodes 1..4), `A.splice(last, A, first, last)`
with `first` the node holding 2 and `last` the node holding 4 keeps every
`next` link, so forward traversal still reads `[1,2,3,4]`, but it exchanges
the `prev` links of `first` and `last`: afterwards `3.next.prev` is node 1,
not node 3, and reverse traversal reads `[4,1]`.  With the whole list as the
range (`first = begin()`, `last = end()`) the sentinel's `prev` becomes the
sentinel itself instead of the final node. -/
theorem splice_before_last_breaks_prev :
    list.WF heapAB ⟨0⟩ [(1, 1), (2, 2), (3, 3), (4, 4)] ∧
    list.traverse (list.splice heapAB ⟨0⟩ ⟨4⟩ ⟨0⟩ ⟨2⟩ ⟨4⟩) ⟨0⟩ 4 = some [1, 2, 3, 4] ∧
    (list.splice heapAB ⟨0⟩ ⟨4⟩ ⟨0⟩ ⟨2⟩ ⟨4⟩).next 3 = 4 ∧
    (list.splice heapAB ⟨0⟩ ⟨4⟩ ⟨0⟩ ⟨2⟩ ⟨4⟩).prev 4 = 1 ∧
    (list.splice heapAB ⟨0⟩ ⟨4⟩ ⟨0⟩ ⟨2⟩ ⟨4⟩).prev 2 = 3 ∧
    list.rtraverse (list.splice heapAB ⟨0⟩ ⟨4⟩ ⟨0⟩ ⟨2⟩ ⟨4⟩) ⟨0⟩ 4 = some [4, 1] ∧
    list.traverse (list.splice heapAB ⟨0⟩ ⟨0⟩ ⟨0⟩ ⟨1⟩ ⟨0⟩) ⟨0⟩ 4 = some [1, 2, 3, 4] ∧
    (heapAB.prev 0 = 4 ∧ (list.splice heapAB ⟨0⟩ ⟨0⟩ ⟨0⟩ ⟨1⟩ ⟨0⟩).prev 0 = 0) := by
  decide

/-! ## Swap and copy assignment with an empty list -/

set_option maxRecDepth 100000 in
/-- Claim C15, evaluated on the code: with `a = [5]` (sentinel 0, node 1) and
`b` empty (sentinel 2), both well formed, `swap(a, b)` leaves the two
sentinels linked to each other (`a.next == a.prev == &b`,
`b.next == b.prev == &a`), so `a.empty()` is false although `a` should now be
empty, and traversal of `b` dereferences a sentinel instead of reading `[5]`.
With two empty lists (sentinels 0 and 1) `swap` makes both report
`empty() == false`.  With the two non-empty lists `A = [1,2,3,4]` and
`B = [10,20,30]` the same call exchanges the contents. -/
theorem swap_with_empty_breaks :
    list.WF heapLE ⟨0⟩ [(1, 5)] ∧ list.WF heapLE ⟨2⟩ [] ∧
    (swap heapLE ⟨0⟩ ⟨2⟩).next 0 = 2 ∧ (swap heapLE ⟨0⟩ ⟨2⟩).prev 0 = 2 ∧
    (swap heapLE ⟨0⟩ ⟨2⟩).next 2 = 0 ∧ (swap heapLE ⟨0⟩ ⟨2⟩).prev 2 = 0 ∧
    list.empty (swap heapLE ⟨0⟩ ⟨2⟩) ⟨0⟩ = false ∧
    list.traverse (swap heapLE ⟨0⟩ ⟨2⟩) ⟨2⟩ 4 = none ∧
    list.WF heapEE ⟨0⟩ [] ∧ list.WF heapEE ⟨1⟩ [] ∧
    list.empty (swap heapEE ⟨0⟩ ⟨1⟩) ⟨0⟩ = false ∧
    list.empty (swap heapEE ⟨0⟩ ⟨1⟩) ⟨1⟩ = false ∧
    list.traverse (swap heapAB ⟨0⟩ ⟨5⟩) ⟨0⟩ 3 = some [10, 20, 30] ∧
    list.traverse (swap heapAB ⟨0⟩ ⟨5⟩) ⟨5⟩ 4 = some [1, 2, 3, 4] := by
  decide

set_option maxRecDepth 100000 in
/-- Claim C14, evaluated on the code: with `L1 = [5]` (sentinel 0, node 1)
and `L2` empty (sentinel 2), both well formed, the assignment `L2 = L1` (the
parameter copy at address 9 with its node at address 10) finishes, but the
`swap` inside it leaves the sentinels of `L2` and of the parameter linked to
each other, and the following `clear()` of the parameter erases the sentinel
of `L2`: afterwards the sentinel of `L2` is released, its `next` is the
sentinel of the parameter, traversal of `L2` does not read `[5]`, and the
copied node at address 10 is still allocated although no list contains it.
With the non-empty `B = [10,20,30]` as the target, `B = A` gives `B` the
elements `[1,2,3,4]`, keeps `A` and releases the old nodes of `B`.  The
assignment also fails the other way round, with the source empty (sentinel 2)
and the target `[5]` (sentinel 0), where the copy executes no cursor operator:
the `clear()` of the parameter then erases the sentinel of the target. -/
theorem assign_to_empty_breaks :
    list.WF heapLE ⟨0⟩ [(1, 5)] ∧ list.WF heapLE ⟨2⟩ [] ∧
    (list.assign heapLE ⟨2⟩ ⟨0⟩ 9 [10] 4).isSome = true ∧
    (list.assign heapLE ⟨2⟩ ⟨0⟩ 9 [10] 4).map (fun h => h.alloc 2) = some false ∧
    (list.assign heapLE ⟨2⟩ ⟨0⟩ 9 [10] 4).map (fun h => h.next 2) = some 9 ∧
    (list.assign heapLE ⟨2⟩ ⟨0⟩ 9 [10] 4).map (fun h => h.alloc 10) = some true ∧
    (list.assign heapLE ⟨2⟩ ⟨0⟩ 9 [10] 4).map (fun h => list.traverse h ⟨2⟩ 4) = some none ∧
    (list.assign heapLE ⟨2⟩ ⟨0⟩ 9 [10] 4).map (fun h => list.traverse h ⟨0⟩ 4)
      = some (some [5]) ∧
    (list.assign heapAB ⟨5⟩ ⟨0⟩ 9 [10, 11, 12, 13] 4).map (fun h => list.traverse h ⟨5⟩ 4)
      = some (some [1, 2, 3, 4]) ∧
    (list.assign heapAB ⟨5⟩ ⟨0⟩ 9 [10, 11, 12, 13] 4).map (fun h => list.traverse h ⟨0⟩ 4)
      = some (some [1, 2, 3, 4]) ∧
    (list.assign heapAB ⟨5⟩ ⟨0⟩ 9 [10, 11, 12, 13] 4).map
      (fun h => (h.alloc 6, h.alloc 7, h.alloc 8)) = some (false, false, false) ∧
    (list.assign heapLE ⟨0⟩ ⟨2⟩ 9 [] 4).isSome = true ∧
    (list.assign heapLE ⟨0⟩ ⟨2⟩ 9 [] 4).map (fun h => h.alloc 0) = some false ∧
    (list.assign heapLE ⟨0⟩ ⟨2⟩ 9 [] 4).map (fun h => h.next 0) = some 9 ∧
    (list.assign heapLE ⟨0⟩ ⟨2⟩ 9 [] 4).map (fun h => list.traverse h ⟨0⟩ 4) = some none := by
  decide

end Sorokin
